import Mathlib

/-!
Verification of the reconcile-curation-in-cris-systems parsing utilities.

This file gives a shallow embedding, in Lean 4, of the pure core of the three
Rust programs under src/parsing-utils:

* crossref-fast-field-parse/src/main.rs   (schema-driven pattern trie, record
  filtering, stats aggregation, LRU-bounded sharded writer),
* openalex-fast-field-parse/src/main.rs   (record filtering, DOI stripping),
* parse_join_normalize_author_affiliation_metadata/src/main.rs
  (k-way merge of sorted chunks, author/affiliation group materialization,
  text normalization).

Machine strings are Lean `String`s; JSON numbers are modelled as `Int`
(number rendering fidelity beyond integers is not needed by any claim here);
Rust `HashMap`s are modelled as association lists in insertion order (the
programs never observe iteration order except where noted in comments);
fallible steps return `Option`.
-/

namespace CurationProofs

/-! ## JSON documents

Mirror of `serde_json::Value` as used by the extractors. Arrays and objects
are given by mutually inductive list types so that all functions below are
structural recursions that evaluate by `rfl`/`decide`. Object entries are in
document order.
-/

mutual

inductive Json where
  | null : Json
  | jbool : Bool → Json
  | jnum : Int → Json
  | jstr : String → Json
  | jarr : JList → Json
  | jobj : JObj → Json
deriving DecidableEq

inductive JList where
  | nil : JList
  | cons : Json → JList → JList
deriving DecidableEq

inductive JObj where
  | nil : JObj
  | cons : String → Json → JObj → JObj
deriving DecidableEq

end

/-- Lookup of a key in a JSON object, first entry wins (mirror of
`serde_json::Value::get`). -/
def JObj.find : JObj → String → Option Json
  | .nil, _ => none
  | .cons k v rest, key => if k = key then some v else JObj.find rest key

/-- Mirror of `record.get(key)` on a JSON value: `None` unless the value is an
object containing the key. -/
def jGet : Json → String → Option Json
  | .jobj o, key => o.find key
  | _, _ => none

/-- Mirror of `Value::as_str`. -/
def asStr : Option Json → Option String
  | some (.jstr s) => some s
  | _ => none

/-! ## Schema registry and pattern trie
(crossref-fast-field-parse/src/main.rs, `FieldType`, `SCHEMA_STRUCTURE`,
`PatternTrie::new`, `PatternTrie::traverse`).

The Rust code consults the static `SCHEMA_STRUCTURE` map; the builder here
takes the schema as a function argument, instantiated per claim with the
relevant restriction of that static map.
-/

inductive FieldType where
  | array : FieldType
  | object : FieldType
  | value : FieldType
deriving DecidableEq

/-- Mirror of `PatternTrieNode`: children keyed by segment, plus the list of
terminating pattern names. Children are an association list (the Rust
`HashMap` is only ever queried by key, never iterated). -/
inductive TrieNode where
  | mk : List (String × TrieNode) → List String → TrieNode

def TrieNode.children : TrieNode → List (String × TrieNode)
  | .mk cs _ => cs

def TrieNode.pats : TrieNode → List String
  | .mk _ ps => ps

def lookupChild : List (String × TrieNode) → String → Option TrieNode
  | [], _ => none
  | (k, v) :: rest, key => if k = key then some v else lookupChild rest key

def setChild : List (String × TrieNode) → String → TrieNode → List (String × TrieNode)
  | [], key, c => [(key, c)]
  | (k, v) :: rest, key, c =>
    if k = key then (key, c) :: rest else (k, v) :: setChild rest key c

def emptyNode : TrieNode := .mk [] []

def TrieNode.childOf (n : TrieNode) (k : String) : TrieNode :=
  (lookupChild n.children k).getD emptyNode

def TrieNode.withChild (n : TrieNode) (k : String) (c : TrieNode) : TrieNode :=
  .mk (setChild n.children k c) n.pats

def TrieNode.markPat (n : TrieNode) (name : String) : TrieNode :=
  .mk n.children (n.pats ++ [name])

/-- One spec inserted into the trie (the per-segment loop body of
`PatternTrie::new`): walk the segments, keeping the accumulated dotted schema
path; after each literal child, if the schema declares the accumulated path
as Array, descend through an extra reserved `[]` child; mark the final node
with the full pattern name. -/
def addSpec (schema : String → Option FieldType) (name : String) :
    List String → String → TrieNode → TrieNode
  | [], _, n => n.markPat name
  | seg :: rest, path, n =>
    let path' := if path = "" then seg else path ++ "." ++ seg
    let c := n.childOf seg
    if schema path' = some FieldType.array then
      let cc := c.childOf "[]"
      n.withChild seg (c.withChild "[]" (addSpec schema name rest path' cc))
    else
      n.withChild seg (addSpec schema name rest path' c)

def relationWildcard : List String := ["relation", "*"]

/-- Mirror of `PatternTrie::new` (Crossref): if any spec starts with
`relation` and `relation.*` is not among the specs, append it; then insert
every non-empty spec, naming it by the dot-joined segments. -/
def buildTrie (schema : String → Option FieldType) (fieldSpecs : List (List String)) :
    TrieNode :=
  let hasRelation := fieldSpecs.any (fun spec =>
    match spec with
    | [] => false
    | s :: _ => s == "relation")
  let uniqueSpecs :=
    if hasRelation && !(fieldSpecs.contains relationWildcard) then
      fieldSpecs ++ [relationWildcard]
    else fieldSpecs
  uniqueSpecs.foldl
    (fun root spec =>
      match spec with
      | [] => root
      | _ => addSpec schema (String.intercalate "." spec) spec "" root)
    emptyNode

/-! ### Value stringification and compact serialization
(`PatternTrie::traverse`, the `value_str` match). -/

def hexDigit (n : Nat) : Char :=
  if n < 10 then Char.ofNat (48 + n) else Char.ofNat (87 + n)

def escapeChar (c : Char) : String :=
  if c = '"' then "\\\""
  else if c = '\\' then "\\\\"
  else if c = Char.ofNat 8 then "\\b"
  else if c = Char.ofNat 12 then "\\f"
  else if c = '\n' then "\\n"
  else if c = Char.ofNat 13 then "\\r"
  else if c = '\t' then "\\t"
  else if c.toNat < 32 then
    "\\u00" ++ String.singleton (hexDigit (c.toNat / 16)) ++
      String.singleton (hexDigit (c.toNat % 16))
  else String.singleton c

def escapeStr (s : String) : String :=
  s.data.foldl (fun acc c => acc ++ escapeChar c) ""

mutual

/-- Compact JSON serialization (mirror of `serde_json::to_string` on a
`Value`, which emits no whitespace). -/
def jsonCompact : Json → String
  | .null => "null"
  | .jbool b => if b then "true" else "false"
  | .jnum n => toString n
  | .jstr s => "\"" ++ escapeStr s ++ "\""
  | .jarr xs => "[" ++ compactList xs ++ "]"
  | .jobj kvs => "\x7b" ++ compactObj kvs ++ "\x7d"

def compactList : JList → String
  | .nil => ""
  | .cons x rest =>
    match rest with
    | .nil => jsonCompact x
    | _ => jsonCompact x ++ "," ++ compactList rest

def compactObj : JObj → String
  | .nil => ""
  | .cons k v rest =>
    match rest with
    | .nil => "\"" ++ escapeStr k ++ "\":" ++ jsonCompact v
    | _ => "\"" ++ escapeStr k ++ "\":" ++ jsonCompact v ++ "," ++ compactObj rest

end

/-- The `value_str` computation of `PatternTrie::traverse`, parametrized by
the complex-value serializer so that the `unwrap_or_else` failure arm (the
`"[serialization error]"` sentinel) is expressible: the Rust code calls
`serde_json::to_string` and substitutes the sentinel when it errs. -/
def stringifyWith (ser : Json → Option String) (j : Json) : String :=
  match j with
  | .jstr s => s
  | .jnum n => toString n
  | .jbool b => if b then "true" else "false"
  | .null => ""
  | _ => (ser j).getD "[serialization error]"

/-- The serializer actually installed in the binary. -/
def serJson : Json → Option String := fun j => some (jsonCompact j)

def extendPath (path key : String) : String :=
  if path = "" then key else path ++ "." ++ key

mutual

/-- Mirror of `PatternTrie::traverse`: emit one (pattern, concrete path,
value) triple per terminating pattern at the current node, then recurse —
objects through the matching literal child and the `*` wildcard child, arrays
through the reserved `[]` child with the path extended by `[i]`. -/
def traverse (ser : Json → Option String) (j : Json) (t : TrieNode) (path : String) :
    List (String × String × String) :=
  (t.pats.map (fun p => (p, path, stringifyWith ser j))) ++
  (match j with
   | .jobj kvs => traverseObj ser kvs t path
   | .jarr xs =>
     match lookupChild t.children "[]" with
     | some arrChild => traverseArr ser xs arrChild path 0
     | none => []
   | _ => [])

def traverseObj (ser : Json → Option String) (kvs : JObj) (t : TrieNode) (path : String) :
    List (String × String × String) :=
  match kvs with
  | .nil => []
  | .cons k v rest =>
    (match lookupChild t.children k with
     | some c => traverse ser v c (extendPath path k)
     | none => []) ++
    (match lookupChild t.children "*" with
     | some w => traverse ser v w (extendPath path k)
     | none => []) ++
    traverseObj ser rest t path

def traverseArr (ser : Json → Option String) (xs : JList) (c : TrieNode) (path : String)
    (i : Nat) : List (String × String × String) :=
  match xs with
  | .nil => []
  | .cons x rest =>
    traverse ser x c (path ++ "[" ++ toString i ++ "]") ++ traverseArr ser rest c path (i + 1)

end

/-- Mirror of `PatternTrie::extract`. -/
def extract (t : TrieNode) (j : Json) : List (String × String × String) :=
  traverse serJson j t ""

/-! ### Concrete data for claim C1 (spec §8 scenario 1). -/

/-- Restriction of the static `SCHEMA_STRUCTURE` map to the paths reached by
the claim: `author` is Array, `author.family` is Value. -/
def c1Schema : String → Option FieldType := fun p =>
  if p = "author" then some FieldType.array
  else if p = "author.family" then some FieldType.value
  else none

def c1Trie : TrieNode := buildTrie c1Schema [["author", "family"]]

def c1Doc : Json :=
  .jobj (.cons "author"
    (.jarr (.cons (.jobj (.cons "family" (.jstr "Doe") .nil))
      (.cons (.jobj (.cons "family" (.jstr "Roe") .nil))
        (.cons (.jobj .nil) .nil))))
    .nil)

/-! ### Serializer independence of the matched (pattern, path) set. -/

/-- Projection of an extraction result onto its (pattern, concrete path)
components, discarding value strings. -/
def shapeOf (l : List (String × String × String)) : List (String × String) :=
  l.map (fun r => (r.1, r.2.1))

mutual

theorem shape_traverse (ser ser2 : Json → Option String) (j : Json) :
    ∀ t path, shapeOf (traverse ser j t path) = shapeOf (traverse ser2 j t path) := by
  intro t path
  cases j with
  | null => simp [traverse, shapeOf]
  | jbool b => simp [traverse, shapeOf]
  | jnum n => simp [traverse, shapeOf]
  | jstr s => simp [traverse, shapeOf]
  | jarr xs =>
    simp only [traverse, shapeOf, List.map_append, List.map_map]
    cases lookupChild t.children "[]" with
    | none => rfl
    | some arrChild =>
      have h := shape_traverseArr ser ser2 xs arrChild path 0
      simp only [shapeOf] at h
      simp [h]
  | jobj kvs =>
    have h := shape_traverseObj ser ser2 kvs t path
    simp only [traverse, shapeOf, List.map_append, List.map_map]
    simp only [shapeOf] at h
    simp [h]

theorem shape_traverseObj (ser ser2 : Json → Option String) (kvs : JObj) :
    ∀ t path, shapeOf (traverseObj ser kvs t path) = shapeOf (traverseObj ser2 kvs t path) := by
  intro t path
  cases kvs with
  | nil => rfl
  | cons k v rest =>
    have hrest := shape_traverseObj ser ser2 rest t path
    simp only [traverseObj, shapeOf, List.map_append] at *
    have h1 : (match lookupChild t.children k with
        | some c => traverse ser v c (extendPath path k)
        | none => []).map (fun (r : String × String × String) => (r.1, r.2.1)) =
        (match lookupChild t.children k with
        | some c => traverse ser2 v c (extendPath path k)
        | none => []).map (fun (r : String × String × String) => (r.1, r.2.1)) := by
      cases lookupChild t.children k with
      | none => rfl
      | some c =>
        have := shape_traverse ser ser2 v c (extendPath path k)
        simpa [shapeOf] using this
    have h2 : (match lookupChild t.children "*" with
        | some w => traverse ser v w (extendPath path k)
        | none => []).map (fun (r : String × String × String) => (r.1, r.2.1)) =
        (match lookupChild t.children "*" with
        | some w => traverse ser2 v w (extendPath path k)
        | none => []).map (fun (r : String × String × String) => (r.1, r.2.1)) := by
      cases lookupChild t.children "*" with
      | none => rfl
      | some w =>
        have := shape_traverse ser ser2 v w (extendPath path k)
        simpa [shapeOf] using this
    rw [h1, h2, hrest]

theorem shape_traverseArr (ser ser2 : Json → Option String) (xs : JList) :
    ∀ c path i, shapeOf (traverseArr ser xs c path i) = shapeOf (traverseArr ser2 xs c path i) := by
  intro c path i
  cases xs with
  | nil => rfl
  | cons x rest =>
    have hx := shape_traverse ser ser2 x c (path ++ "[" ++ toString i ++ "]")
    have hrest := shape_traverseArr ser ser2 rest c path (i + 1)
    simp only [traverseArr, shapeOf, List.map_append] at *
    rw [hx, hrest]

end

/-! ## Record field extraction and per-record filtering
(crossref-fast-field-parse `extract_member_id` / `extract_doi` /
`extract_doi_prefix` and `JsonlProcessor::process`;
openalex-fast-field-parse `extract_work_id` / `extract_doi` /
`extract_source_id` / `extract_doi_prefix` and `JsonlProcessor::process`).
-/

/-- Mirror of `str::split_once('/')` restricted to the first component: the
substring before the first slash when the string contains one. -/
def splitOnceSlash (s : String) : Option String :=
  if s.data.contains '/' then some (String.mk (s.data.takeWhile (fun c => c ≠ '/'))) else none

/-- Crossref `extract_doi`: the `DOI` field as a string. -/
def crDoiOf (rec : Json) : Option String := asStr (jGet rec "DOI")

/-- Crossref `extract_member_id`: the `member` field if it is a string, its
canonical rendering if it is a number, otherwise absent. -/
def crMemberOf (rec : Json) : Option String :=
  match jGet rec "member" with
  | some (.jstr s) => some s
  | some (.jnum n) => some (toString n)
  | _ => none

/-- Crossref `extract_doi_prefix`: the explicit `prefix` field if present as a
string, otherwise the part of the DOI before its first slash. -/
def crPfxOf (rec : Json) (doi : Option String) : Option String :=
  match asStr (jGet rec "prefix") with
  | some s => some s
  | none =>
    match doi with
    | some d => splitOnceSlash d
    | none => none

/-- Leading-sequence removal on character lists (mirror of
`str::strip_prefix`, which succeeds only on an exact leading match). -/
def dropPref : List Char → List Char → Option (List Char)
  | [], s => some s
  | _ :: _, [] => none
  | p :: ps, c :: cs => if p = c then dropPref ps cs else none

/-- OpenAlex `extract_doi`: the `doi` field as a string, with a leading
`https://doi.org/` removed when present. -/
def oaDoiOf (rec : Json) : Option String :=
  (asStr (jGet rec "doi")).map (fun s =>
    match dropPref "https://doi.org/".data s.data with
    | some rest => String.mk rest
    | none => s)

/-- OpenAlex `extract_work_id`: the `id` field as a string. -/
def oaWorkIdOf (rec : Json) : Option String := asStr (jGet rec "id")

/-- OpenAlex `extract_source_id`: `primary_location.source.id` as a string. -/
def oaSourceOf (rec : Json) : Option String :=
  match jGet rec "primary_location" with
  | some loc =>
    match jGet loc "source" with
    | some src => asStr (jGet src "id")
    | none => none
  | none => none

/-- OpenAlex `extract_doi_prefix`: the part of the (already stripped) DOI
before its first slash. -/
def oaPfxOf (doi : Option String) : Option String :=
  match doi with
  | some d => splitOnceSlash d
  | none => none

/-! ### Per-record processing decisions
(`JsonlProcessor::process`, the body of the per-line loop, both datasets).
Counters and batching are outside these claims; what is modelled is the
decision taken for one parsed record: filtered out, skipped for a missing
field, or accepted with its extracted rows.
-/

/-- Mirror of `opt.as_ref().is_none_or(|v| v != filter)`: `true` exactly when
a filter is set and the value is absent or different. -/
def failsFilter (filter : Option String) (v : Option String) : Bool :=
  match filter with
  | none => false
  | some f =>
    match v with
    | none => true
    | some x => x != f

structure CrRow where
  doi : String
  field_name : String
  subfield_path : String
  value : String
  member_id : String
  doiPfx : String
deriving DecidableEq

inductive CrOutcome where
  | filtered : CrOutcome
  | missingMember : CrOutcome
  | missingDoi : CrOutcome
  | accepted : List CrRow → CrOutcome
deriving DecidableEq

/-- Crossref `JsonlProcessor::process`, per-record decision: member filter,
then DOI-prefix filter, then missing-member skip, then missing-DOI skip, then
extraction (`doi_prefix` falls back to the empty string). -/
def crProcessRecord (filterMember filterPfx : Option String) (trie : TrieNode)
    (rec : Json) : CrOutcome :=
  let m := crMemberOf rec
  let d := crDoiOf rec
  let p := crPfxOf rec d
  if failsFilter filterMember m then .filtered
  else if failsFilter filterPfx p then .filtered
  else
    match m with
    | none => .missingMember
    | some memberId =>
      match d with
      | none => .missingDoi
      | some doi =>
        let pfx := p.getD ""
        .accepted ((extract trie rec).map (fun tr =>
          { doi := doi, field_name := tr.1, subfield_path := tr.2.1,
            value := tr.2.2, member_id := memberId, doiPfx := pfx }))

structure OaRow where
  work_id : String
  doi : Option String
  field_name : String
  subfield_path : String
  value : String
  source_id : Option String
  doiPfx : String
  source_file_path : String
deriving DecidableEq

inductive OaOutcome where
  | filtered : OaOutcome
  | missingWorkId : OaOutcome
  | accepted : List OaRow → OaOutcome
deriving DecidableEq

/-- OpenAlex `JsonlProcessor::process`, per-record decision: source filter,
then DOI-prefix filter, then missing-work-id skip; a missing source id only
increments a counter and the record is kept with `source_id = None`. -/
def oaProcessRecord (filterSource filterPfx : Option String) (trie : TrieNode)
    (filepath : String) (rec : Json) : OaOutcome :=
  let w := oaWorkIdOf rec
  let s := oaSourceOf rec
  let d := oaDoiOf rec
  let p := oaPfxOf d
  if failsFilter filterSource s then .filtered
  else if failsFilter filterPfx p then .filtered
  else
    match w with
    | none => .missingWorkId
    | some workId =>
      let pfx := p.getD ""
      .accepted ((extract trie rec).map (fun tr =>
        { work_id := workId, doi := d, field_name := tr.1, subfield_path := tr.2.1,
          value := tr.2.2, source_id := s, doiPfx := pfx, source_file_path := filepath }))

/-- Mirror of the OpenAlex `SingleFileOutput::write_batch` row: missing `doi`
and `source_id` are emitted as empty CSV fields. -/
def oaCsvRow (r : OaRow) : List String :=
  [r.work_id, r.doi.getD "", r.field_name, r.subfield_path, r.value,
   r.source_id.getD "", r.doiPfx, r.source_file_path]

/-! ## Transform-stage input rows
(parse_join_normalize_author_affiliation_metadata/src/main.rs,
`InputRecord`). The `source` field is deserialized from the `source_id` CSV
column; `doiPfx` stands for the source's `doi_prefix` field. -/

structure InputRecord where
  work_id : String
  doi : Option String
  field_name : String
  subfield_path : String
  value : String
  source : Option String
  doiPfx : Option String
  source_file_path : Option String
deriving DecidableEq

/-! ## External sort, phase 2: k-way merge
(parse_join_normalize_author_affiliation_metadata/src/main.rs,
`external_sort::merge_chunks` and `HeapEntry`).

`HeapEntry::cmp` reverses the comparison on `work_id`, so the Rust
`BinaryHeap` pops a record with the minimal key; ties are broken arbitrarily
by the heap. The model below resolves each tie deterministically to the
lowest reader index. Each chunk is modelled as the list of records its
reader yields; the heap holds the head record of every non-exhausted reader,
and a pop emits that record and refills from the same reader. Recursion is
by fuel, instantiated with the total record count, so the merge evaluates by
`decide`.
-/

/-- The sort key used throughout the transform stage. -/
def recKey (r : InputRecord) : String := r.work_id

/-- Index-tagged head records of the non-empty readers, starting at index
`n`: the model of the heap contents. -/
def headsFrom {α : Type} : Nat → List (List α) → List (Nat × α)
  | _, [] => []
  | i, l :: rest =>
    match l with
    | [] => headsFrom (i + 1) rest
    | x :: _ => (i, x) :: headsFrom (i + 1) rest

def headsIdx {α : Type} (rs : List (List α)) : List (Nat × α) := headsFrom 0 rs

/-- Pop of the min-heap: an entry with minimal key; on ties the leftmost
reader wins (the Rust heap order between equal keys is unspecified). -/
def pickMin {α : Type} (key : α → String) : List (Nat × α) → Option (Nat × α)
  | [] => none
  | x :: xs =>
    match pickMin key xs with
    | none => some x
    | some y => if key y.2 < key x.2 then some y else some x

/-- Refill step: reader `i` is advanced past its head record. -/
def advanceAt {α : Type} (rs : List (List α)) (i : Nat) : List (List α) :=
  rs.set i ((rs.getD i []).tail)

def totalLen {α : Type} (rs : List (List α)) : Nat := (rs.map List.length).sum

def kMergeFuel {α : Type} (key : α → String) : Nat → List (List α) → List α
  | 0, _ => []
  | fuel + 1, rs =>
    match pickMin key (headsIdx rs) with
    | none => []
    | some (i, x) => x :: kMergeFuel key fuel (advanceAt rs i)

def kMerge {α : Type} (key : α → String) (rs : List (List α)) : List α :=
  kMergeFuel key (totalLen rs) rs

/-- Mirror of `external_sort::merge_chunks` on already-decoded chunk
contents. -/
def mergeChunks (chunks : List (List InputRecord)) : List InputRecord :=
  kMerge recKey chunks

section KMergeLemmas

variable {α : Type} (key : α → String)

theorem headsFrom_mem {rs : List (List α)} :
    ∀ {n i x}, (i, x) ∈ headsFrom n rs →
      n ≤ i ∧ i - n < rs.length ∧ (rs.getD (i - n) []).head? = some x := by
  induction rs with
  | nil => intro n i x h; simp [headsFrom] at h
  | cons l rest ih =>
    intro n i x h
    cases l with
    | nil =>
      have h' := ih (n := n + 1) (i := i) (x := x) (by simpa [headsFrom] using h)
      obtain ⟨h1, h2, h3⟩ := h'
      refine ⟨by omega, by simp; omega, ?_⟩
      have hin : i - n = (i - (n + 1)) + 1 := by omega
      rw [hin]
      simpa using h3
    | cons y t =>
      simp only [headsFrom, List.mem_cons] at h
      rcases h with heq | h'
      · injection heq with h1 h2
        subst h1
        subst h2
        exact ⟨le_refl _, by simp, by simp⟩
      · obtain ⟨h1, h2, h3⟩ := ih (n := n + 1) (i := i) (x := x) h'
        refine ⟨by omega, by simp; omega, ?_⟩
        have hin : i - n = (i - (n + 1)) + 1 := by omega
        rw [hin]
        simpa using h3

theorem headsFrom_of_head {rs : List (List α)} :
    ∀ {n} {l : List α} {h : α}, l ∈ rs → l.head? = some h →
      ∃ j, (j, h) ∈ headsFrom n rs := by
  induction rs with
  | nil => intro n l h hm; simp at hm
  | cons l0 rest ih =>
    intro n l h hm hh
    rcases List.mem_cons.mp hm with rfl | hm'
    · cases l with
      | nil => simp at hh
      | cons y t =>
        refine ⟨n, ?_⟩
        simp only [List.head?] at hh
        cases hh
        simp [headsFrom]
    · cases l0 with
      | nil =>
        obtain ⟨j, hj⟩ := ih (n := n + 1) hm' hh
        exact ⟨j, by simpa [headsFrom] using hj⟩
      | cons y t =>
        obtain ⟨j, hj⟩ := ih (n := n + 1) hm' hh
        exact ⟨j, by simp [headsFrom, hj]⟩

theorem headsFrom_nil_iff {rs : List (List α)} :
    ∀ {n}, headsFrom n rs = [] ↔ ∀ l ∈ rs, l = ([] : List α) := by
  induction rs with
  | nil => intro n; simp [headsFrom]
  | cons l rest ih =>
    intro n
    cases l with
    | nil => simp [headsFrom, ih]
    | cons y t => simp [headsFrom]

theorem pickMin_none : ∀ {l : List (Nat × α)}, pickMin key l = none → l = [] := by
  intro l h
  cases l with
  | nil => rfl
  | cons x xs =>
    exfalso
    cases hrec : pickMin key xs with
    | none =>
      simp only [pickMin, hrec] at h
      exact Option.noConfusion h
    | some y =>
      simp only [pickMin, hrec] at h
      by_cases hlt : key y.2 < key x.2
      · rw [if_pos hlt] at h; exact Option.noConfusion h
      · rw [if_neg hlt] at h; exact Option.noConfusion h

theorem pickMin_mem : ∀ {l : List (Nat × α)} {p}, pickMin key l = some p → p ∈ l := by
  intro l
  induction l with
  | nil => intro p h; simp [pickMin] at h
  | cons x xs ih =>
    intro p h
    cases hrec : pickMin key xs with
    | none =>
      simp only [pickMin, hrec] at h
      cases h
      exact List.mem_cons_self _ _
    | some y =>
      simp only [pickMin, hrec] at h
      by_cases hlt : key y.2 < key x.2
      · rw [if_pos hlt] at h; cases h; exact List.mem_cons_of_mem _ (ih hrec)
      · rw [if_neg hlt] at h; cases h; exact List.mem_cons_self _ _

theorem pickMin_min : ∀ {l : List (Nat × α)} {p}, pickMin key l = some p →
    ∀ q ∈ l, key p.2 ≤ key q.2 := by
  intro l
  induction l with
  | nil => intro p h; simp [pickMin] at h
  | cons x xs ih =>
    intro p h q hq
    cases hrec : pickMin key xs with
    | none =>
      have hxs : xs = [] := pickMin_none key hrec
      subst hxs
      simp only [pickMin, hrec] at h
      cases h
      rcases List.mem_cons.mp hq with rfl | hq'
      · exact le_refl _
      · simp at hq'
    | some y =>
      simp only [pickMin, hrec] at h
      by_cases hlt : key y.2 < key x.2
      · rw [if_pos hlt] at h; cases h
        rcases List.mem_cons.mp hq with rfl | hq'
        · exact le_of_lt hlt
        · exact ih hrec _ hq'
      · rw [if_neg hlt] at h; cases h
        rcases List.mem_cons.mp hq with rfl | hq'
        · exact le_refl _
        · exact le_trans (not_lt.mp hlt) (ih hrec _ hq')

theorem getD_mem {rs : List (List α)} : ∀ {i}, i < rs.length → rs.getD i [] ∈ rs := by
  induction rs with
  | nil => intro i h; simp at h
  | cons l rest ih =>
    intro i h
    cases i with
    | zero => simp
    | succ j =>
      simp only [List.getD_cons_succ]
      exact List.mem_cons_of_mem _ (ih (by simpa using h))

theorem totalLen_advance {rs : List (List α)} :
    ∀ {i : Nat} {x : α}, (rs.getD i []).head? = some x →
      totalLen (advanceAt rs i) + 1 = totalLen rs := by
  induction rs with
  | nil => intro i x h; simp [List.getD] at h
  | cons l rest ih =>
    intro i x h
    cases i with
    | zero =>
      simp only [List.getD_cons_zero] at h
      cases l with
      | nil => simp at h
      | cons y t =>
        simp only [List.head?] at h
        cases h
        simp [advanceAt, totalLen]
        omega
    | succ j =>
      simp only [List.getD_cons_succ] at h
      have := ih (i := j) h
      simp only [advanceAt, totalLen, List.getD_cons_succ, List.set_cons_succ,
        List.map_cons, List.sum_cons] at *
      omega

theorem join_perm_advance {rs : List (List α)} :
    ∀ {i : Nat} {x : α}, (rs.getD i []).head? = some x →
      rs.flatten.Perm (x :: (advanceAt rs i).flatten) := by
  induction rs with
  | nil => intro i x h; simp [List.getD] at h
  | cons l rest ih =>
    intro i x h
    cases i with
    | zero =>
      simp only [List.getD_cons_zero] at h
      cases l with
      | nil => simp at h
      | cons y t =>
        simp only [List.head?] at h
        cases h
        simp [advanceAt]
    | succ j =>
      simp only [List.getD_cons_succ] at h
      have hp := ih (i := j) h
      have hset : advanceAt (l :: rest) (j + 1) = l :: advanceAt rest j := by
        simp [advanceAt, List.set_cons_succ, List.getD_cons_succ]
      rw [hset, List.flatten_cons, List.flatten_cons]
      exact (hp.append_left l).trans List.perm_middle

theorem kMergeFuel_perm {fuel : Nat} : ∀ {rs : List (List α)},
    totalLen rs ≤ fuel → (kMergeFuel key fuel rs).Perm rs.flatten := by
  induction fuel with
  | zero =>
    intro rs h
    have hlen : rs.flatten.length = 0 := by
      rw [List.length_flatten]
      simp only [totalLen] at h
      omega
    rw [List.length_eq_zero] at hlen
    simp [kMergeFuel, hlen]
  | succ n ih =>
    intro rs h
    cases hp : pickMin key (headsIdx rs) with
    | none =>
      have hnil : headsIdx rs = [] := pickMin_none key hp
      have hall : ∀ l ∈ rs, l = ([] : List α) := (headsFrom_nil_iff).mp hnil
      have hj : rs.flatten = [] := List.flatten_eq_nil_iff.mpr hall
      simp [kMergeFuel, hp, hj]
    | some p =>
      obtain ⟨i, x⟩ := p
      have hmem := pickMin_mem key hp
      obtain ⟨-, hlt, hhead⟩ := headsFrom_mem hmem
      simp only [Nat.sub_zero] at hlt hhead
      have hadv := totalLen_advance hhead
      have h1 : totalLen (advanceAt rs i) ≤ n := by omega
      have : kMergeFuel key (n + 1) rs = x :: kMergeFuel key n (advanceAt rs i) := by
        simp [kMergeFuel, hp]
      rw [this]
      exact ((ih h1).cons x).trans (join_perm_advance hhead).symm

theorem sorted_head_le {l : List α} (hsort : l.Sorted (fun a b => key a ≤ key b))
    {h0 y : α} (hh : l.head? = some h0) (hy : y ∈ l) : key h0 ≤ key y := by
  cases l with
  | nil => simp at hy
  | cons a t =>
    simp only [List.head?] at hh
    cases hh
    rcases List.mem_cons.mp hy with rfl | hy'
    · exact le_refl _
    · exact (List.sorted_cons.mp hsort).1 _ hy'

theorem kMergeFuel_sorted {fuel : Nat} : ∀ {rs : List (List α)},
    totalLen rs ≤ fuel → (∀ l ∈ rs, l.Sorted (fun a b => key a ≤ key b)) →
    (kMergeFuel key fuel rs).Sorted (fun a b => key a ≤ key b) := by
  induction fuel with
  | zero => intro rs h hs; simp [kMergeFuel]
  | succ n ih =>
    intro rs h hs
    cases hp : pickMin key (headsIdx rs) with
    | none => simp [kMergeFuel, hp]
    | some p =>
      obtain ⟨i, x⟩ := p
      have hmem := pickMin_mem key hp
      obtain ⟨-, hlt, hhead⟩ := headsFrom_mem hmem
      simp only [Nat.sub_zero] at hlt hhead
      have hadv := totalLen_advance hhead
      have h1 : totalLen (advanceAt rs i) ≤ n := by omega
      obtain ⟨t, ht⟩ : ∃ t, rs.getD i [] = x :: t := by
        cases hl : rs.getD i [] with
        | nil => rw [hl] at hhead; simp at hhead
        | cons y u =>
          rw [hl] at hhead
          simp only [List.head?] at hhead
          cases hhead
          exact ⟨u, rfl⟩
      have hreader : rs.getD i [] ∈ rs := getD_mem hlt
      have hsorted_i : (x :: t).Sorted (fun a b => key a ≤ key b) := ht ▸ hs _ hreader
      have hs' : ∀ l ∈ advanceAt rs i, l.Sorted (fun a b => key a ≤ key b) := by
        intro l' hl'
        rcases List.mem_or_eq_of_mem_set hl' with hin | rfl
        · exact hs _ hin
        · rw [ht]
          exact (List.sorted_cons.mp hsorted_i).2
      have hshow : kMergeFuel key (n + 1) rs = x :: kMergeFuel key n (advanceAt rs i) := by
        simp [kMergeFuel, hp]
      rw [hshow]
      refine List.sorted_cons.mpr ⟨?_, ih h1 hs'⟩
      intro y hy
      have hyj : y ∈ (advanceAt rs i).flatten := ((kMergeFuel_perm key h1).mem_iff).mp hy
      obtain ⟨l', hl', hyl'⟩ := List.mem_flatten.mp hyj
      rcases List.mem_or_eq_of_mem_set hl' with hin | rfl
      · obtain ⟨h0, hh0⟩ : ∃ h0, l'.head? = some h0 := by
          cases l' with
          | nil => simp at hyl'
          | cons a u => exact ⟨a, rfl⟩
        obtain ⟨j, hj⟩ := headsFrom_of_head (n := 0) hin hh0
        have hxh0 : key x ≤ key h0 := pickMin_min key hp _ hj
        exact le_trans hxh0 (sorted_head_le key (hs _ hin) hh0 hyl')
      · rw [ht] at hyl'
        exact (List.sorted_cons.mp hsorted_i).1 _ hyl'

end KMergeLemmas

/-! ## Text normalization
(parse_join_normalize_author_affiliation_metadata/src/main.rs,
`normalize_text` and `NORMALIZE_RE = [^\w\s]`).

The `deunicode` crate always produces ASCII output and is the identity on
ASCII input, so the model works charwise over the ASCII classes: `\w` of the
`regex` crate restricted to ASCII is letters, digits and the underscore;
`\s` and `char::is_whitespace` agree below 0x80 on the six characters
0x09-0x0D and 0x20. The transliteration itself is an abstract parameter.
-/

def isWsChar (c : Char) : Bool :=
  c = ' ' || c = '\t' || c = '\n' || c = Char.ofNat 11 || c = Char.ofNat 12 || c = Char.ofNat 13

def isWordChar (c : Char) : Bool := c.isAlphanum || c = '_'

def trimWs (l : List Char) : List Char :=
  ((l.dropWhile (fun c => isWsChar c)).reverse.dropWhile (fun c => isWsChar c)).reverse

/-- Mirror of `normalize_text`: deunicode (the `translit` parameter), then
lowercase, then delete every character matched by `[^\w\s]`, then trim. -/
def normalizeTextWith (translit : String → String) (s : String) : String :=
  let low := (translit s).data.map Char.toLower
  let cleaned := low.filter (fun c => isWordChar c || isWsChar c)
  String.mk (trimWs cleaned)

/-- The normalization pipeline exactly as the claim words it: characters
that are not alphanumeric or whitespace are dropped (underscore included). -/
def claimNormalizeC8 (translit : String → String) (s : String) : String :=
  let low := (translit s).data.map Char.toLower
  let cleaned := low.filter (fun c => c.isAlphanum || isWsChar c)
  String.mk (trimWs cleaned)

/-- The normalization pipeline as amended: word characters (alphanumerics or
the underscore) and whitespace survive the deletion pass. -/
def amendedNormalizeC8 (translit : String → String) (s : String) : String :=
  let low := (translit s).data.map Char.toLower
  let cleaned := low.filter (fun c => c.isAlphanum || c = '_' || isWsChar c)
  String.mk (trimWs cleaned)

theorem mem_of_mem_trimWs {c : Char} {l : List Char} (h : c ∈ trimWs l) : c ∈ l := by
  unfold trimWs at h
  rw [List.mem_reverse] at h
  have h1 := (List.dropWhile_sublist (fun c => isWsChar c)
    (l := (l.dropWhile (fun c => isWsChar c)).reverse)).mem h
  rw [List.mem_reverse] at h1
  exact (List.dropWhile_sublist (fun c => isWsChar c) (l := l)).mem h1

/-! ## Statistics aggregation
(crossref-fast-field-parse/src/main.rs, `FileStats`,
`IncrementalStats::aggregate_file_stats`, `increment_error_files`, and the
result fold of `run_extraction_pipeline`). Concurrent maps and the
`DashSet` are modelled as association lists / dedup lists; the final fold in
`run_extraction_pipeline` is sequential in the source as well. -/

/-- Insert-if-absent, the model of `DashSet::insert`. -/
def insertSet (x : String) (l : List String) : List String :=
  if x ∈ l then l else l ++ [x]

/-- Mirror of `map.entry(k).or_insert(0) += n` (`or_insert_with` +
`fetch_add` in the source). -/
def updEntry {K V : Type} [DecidableEq K] (k : K) (dflt : V) (f : V → V) :
    List (K × V) → List (K × V)
  | [] => [(k, f dflt)]
  | (k', v) :: rest =>
    if k' = k then (k', f v) :: rest else (k', v) :: updEntry k dflt f rest

structure FileStats where
  unique_dois : List String
  field_counts : List (String × Nat)
  member_counts : List (String × Nat)
  pfxCounts : List (String × Nat)
  total_fields_extracted : Nat
deriving DecidableEq

structure IncrementalStats where
  total_field_records : Nat
  processed_files_ok : Nat
  processed_files_error : Nat
  unique_records : List String
  members : List (String × Nat)
  pfxs : List (String × Nat)
  unique_fields : List (String × Nat)
deriving DecidableEq

def initStats : IncrementalStats := ⟨0, 0, 0, [], [], [], []⟩

/-- Mirror of `IncrementalStats::aggregate_file_stats`. -/
def aggregateFileStats (g : IncrementalStats) (fs : FileStats) : IncrementalStats :=
  { total_field_records := g.total_field_records + fs.total_fields_extracted,
    processed_files_ok := g.processed_files_ok + 1,
    processed_files_error := g.processed_files_error,
    unique_records := fs.unique_dois.foldl (fun acc d => insertSet d acc) g.unique_records,
    members := fs.member_counts.foldl
      (fun acc p => updEntry p.1 0 (fun c => c + p.2) acc) g.members,
    pfxs := fs.pfxCounts.foldl
      (fun acc p => updEntry p.1 0 (fun c => c + p.2) acc) g.pfxs,
    unique_fields := fs.field_counts.foldl
      (fun acc p => updEntry p.1 0 (fun c => c + p.2) acc) g.unique_fields }

structure ProcessedFileResult where
  stats : FileStats
  hasError : Bool
deriving DecidableEq

/-- Mirror of the result fold in `run_extraction_pipeline`: a result with an
error only bumps the error-file counter; otherwise the file stats are merged
into the global stats. -/
def foldResults (results : List ProcessedFileResult) (g : IncrementalStats) :
    IncrementalStats :=
  results.foldl
    (fun acc r =>
      if r.hasError then
        { acc with processed_files_error := acc.processed_files_error + 1 }
      else aggregateFileStats acc r.stats)
    g

theorem foldResults_cons (r : ProcessedFileResult) (rs : List ProcessedFileResult)
    (g : IncrementalStats) :
    foldResults (r :: rs) g =
      foldResults rs
        (if r.hasError then
          { g with processed_files_error := g.processed_files_error + 1 }
        else aggregateFileStats g r.stats) := rfl

/-- Every per-field view of the global fold: a selector that ignores the
error counter and evolves under `aggregateFileStats` through an update
function sees exactly the fold over the error-free results. -/
theorem foldResults_sel {β : Type} (sel : IncrementalStats → β) (upd : β → FileStats → β)
    (hErr : ∀ g e, sel { g with processed_files_error := e } = sel g)
    (hAgg : ∀ g fs, sel (aggregateFileStats g fs) = upd (sel g) fs) :
    ∀ (rs : List ProcessedFileResult) (g : IncrementalStats),
      sel (foldResults rs g) =
        (rs.filter (fun r => !r.hasError)).foldl (fun b r => upd b r.stats) (sel g) := by
  intro rs
  induction rs with
  | nil => intro g; rfl
  | cons r rest ih =>
    intro g
    cases hr : r.hasError with
    | true =>
      rw [foldResults_cons]
      simp only [hr, if_true]
      rw [ih, hErr]
      simp [List.filter_cons, hr]
    | false =>
      rw [foldResults_cons]
      simp only [hr, Bool.false_eq_true, if_false]
      rw [ih, hAgg]
      simp [List.filter_cons, hr]

/-- The error counter counts exactly the results carrying an error. -/
theorem foldResults_err :
    ∀ (rs : List ProcessedFileResult) (g : IncrementalStats),
      (foldResults rs g).processed_files_error =
        g.processed_files_error + (rs.filter (fun r => r.hasError)).length := by
  intro rs
  induction rs with
  | nil => intro g; simp [foldResults]
  | cons r rest ih =>
    intro g
    cases hr : r.hasError with
    | true =>
      rw [foldResults_cons]
      simp only [hr, if_true]
      rw [ih]
      simp [List.filter_cons, hr]
      omega
    | false =>
      rw [foldResults_cons]
      simp only [hr, Bool.false_eq_true, if_false]
      rw [ih]
      have : (aggregateFileStats g r.stats).processed_files_error =
          g.processed_files_error := rfl
      rw [this]
      simp [List.filter_cons, hr]

theorem foldl_add_map {γ : Type} (f : γ → Nat) :
    ∀ (l : List γ) (n : Nat), l.foldl (fun b x => b + f x) n = n + (l.map f).sum := by
  intro l
  induction l with
  | nil => intro n; simp
  | cons x xs ih =>
    intro n
    simp only [List.foldl_cons, List.map_cons, List.sum_cons, ih]
    omega

/-! ## Group materialization
(parse_join_normalize_author_affiliation_metadata/src/main.rs,
`process_work_group` with the index regexes `authorships\[(\d+)\]`,
`affiliations\[(\d+)\]`, `institutions\[(\d+)\]`).

The three `HashMap`s keyed by indices are modelled as association lists in
insertion order. Where the Rust code iterates `HashMap` values the iteration
order is unspecified; the model fixes insertion order. That choice is only
observable (a) on duplicate institution ids with conflicting RORs when
building the `ror_lookup`, and (b) between affiliations with equal
`sequence` values, neither of which any claim depends on.
-/

structure Author where
  display_name : Option String
  sequence : Nat
deriving DecidableEq

structure TempAffiliation where
  raw_string : Option String
  institution_ids : List String
  sequence : Nat
deriving DecidableEq

structure TempInstitution where
  id : Option String
  ror : Option String
deriving DecidableEq

structure OutputRecord where
  work_id : String
  doi : Option String
  author_sequence : Nat
  author_name : String
  normalized_author_name : String
  affiliation_sequence : Nat
  affiliation_name : String
  normalized_affiliation_name : String
  affiliation_ror : String
deriving DecidableEq

/-- Greedy digit run at the head, which must be non-empty and followed by a
closing bracket: the `(\d+)\]` tail of the index regexes (with a greedy
`\d+`, the only way the tail matches is a maximal digit run followed by the
bracket). -/
def matchDigitsBracket (l : List Char) : Option (List Char) :=
  let ds := l.takeWhile Char.isDigit
  if ds.isEmpty then none
  else
    match l.drop ds.length with
    | ']' :: _ => some ds
    | _ => none

/-- Leftmost match of `lit(\d+)\]` in a character list, returning the digit
run of the capture group (mirror of `Regex::captures` for the index
regexes, whose literal part ends in the opening bracket). -/
def findIdxAfter (lit : List Char) : List Char → Option (List Char)
  | [] => none
  | c :: cs =>
    match dropPref lit (c :: cs) with
    | some rest =>
      (match matchDigitsBracket rest with
       | some ds => some ds
       | none => findIdxAfter lit cs)
    | none => findIdxAfter lit cs

def authIdxDigits (s : String) : Option (List Char) :=
  findIdxAfter "authorships[".data s.data

def affIdxDigits (s : String) : Option (List Char) :=
  findIdxAfter "affiliations[".data s.data

def instIdxDigits (s : String) : Option (List Char) :=
  findIdxAfter "institutions[".data s.data

def digitsToNat (ds : List Char) : Nat :=
  ds.foldl (fun a c => a * 10 + (c.toNat - 48)) 0

/-- Mirror of `str::parse::<u32>` on a captured digit run: fails above
`u32::MAX`; the `?` operator turns that failure into a group-processing
error. -/
def parseU32 (ds : List Char) : Option Nat :=
  if digitsToNat ds < 4294967296 then some (digitsToNat ds) else none

structure GroupState where
  authors : List (Nat × Author)
  affiliations : List ((Nat × Nat) × TempAffiliation)
  institutions : List ((Nat × Nat) × TempInstitution)
deriving DecidableEq

def emptyGroup : GroupState := ⟨[], [], []⟩

def defaultAff : TempAffiliation := ⟨none, [], 0⟩

def defaultInst : TempInstitution := ⟨none, none⟩

def dispName : String := "authorships.author.display_name"

def rawAffName : String := "authorships.affiliations.raw_affiliation_string"

def instIdsName : String := "authorships.affiliations.institution_ids"

def instIdName : String := "authorships.institutions.id"

def instRorName : String := "authorships.institutions.ror"

/-- The `match record.field_name.as_str()` dispatch of `process_work_group`,
applied after the author has been registered. -/
def dispatchField (st1 : GroupState) (aIdx : Nat) (r : InputRecord) : Option GroupState :=
  if r.field_name = dispName then
    some { st1 with authors := (updEntry aIdx ⟨none, aIdx⟩
      (fun a => { a with display_name := some r.value }) st1.authors) }
  else if r.field_name = rawAffName then
    match affIdxDigits r.subfield_path with
    | none => some st1
    | some ds =>
      match parseU32 ds with
      | none => none
      | some fIdx =>
        some { st1 with affiliations := (updEntry (aIdx, fIdx) defaultAff
          (fun a => { a with raw_string := some r.value, sequence := fIdx })
          st1.affiliations) }
  else if r.field_name = instIdsName then
    match affIdxDigits r.subfield_path with
    | none => some st1
    | some ds =>
      match parseU32 ds with
      | none => none
      | some fIdx =>
        some { st1 with affiliations := (updEntry (aIdx, fIdx) defaultAff
          (fun a => { a with institution_ids := a.institution_ids ++ [r.value] })
          st1.affiliations) }
  else if r.field_name = instIdName then
    match instIdxDigits r.subfield_path with
    | none => some st1
    | some ds =>
      match parseU32 ds with
      | none => none
      | some iIdx =>
        some { st1 with institutions := (updEntry (aIdx, iIdx) defaultInst
          (fun a => { a with id := some r.value }) st1.institutions) }
  else if r.field_name = instRorName then
    match instIdxDigits r.subfield_path with
    | none => some st1
    | some ds =>
      match parseU32 ds with
      | none => none
      | some iIdx =>
        some { st1 with institutions := (updEntry (aIdx, iIdx) defaultInst
          (fun a => { a with ror := some r.value }) st1.institutions) }
  else some st1

/-- One record folded into the group state: a row without an `authorships`
index is ignored; otherwise the author is registered
(`entry().or_insert_with`) and the field dispatched. -/
def buildStep (st : GroupState) (r : InputRecord) : Option GroupState :=
  match authIdxDigits r.subfield_path with
  | none => some st
  | some ds =>
    match parseU32 ds with
    | none => none
    | some aIdx =>
      dispatchField
        { st with authors := (updEntry aIdx ⟨none, aIdx⟩ id st.authors) } aIdx r

def buildGroup : List InputRecord → GroupState → Option GroupState
  | [], st => some st
  | r :: rest, st =>
    match buildStep st r with
    | none => none
    | some st' => buildGroup rest st'

/-- Overwriting insert, the model of `HashMap::insert` for `ror_lookup`. -/
def insertOver (k v : String) : List (String × String) → List (String × String)
  | [] => [(k, v)]
  | (k', v') :: rest =>
    if k' = k then (k, v) :: rest else (k', v') :: insertOver k v rest

def assocFind : List (String × String) → String → Option String
  | [], _ => none
  | (k', v) :: rest, k => if k' = k then some v else assocFind rest k

/-- The group-local `institution_id → ror` map, built from fully-specified
institutions. -/
def buildRorLookup (insts : List ((Nat × Nat) × TempInstitution)) :
    List (String × String) :=
  insts.foldl
    (fun acc p =>
      match p.2.id, p.2.ror with
      | some i, some r => insertOver i r acc
      | _, _ => acc)
    []

/-- The `for inst_id in &affiliation.institution_ids { ... break }` loop:
the ROR of the first institution id found in the lookup, or empty. -/
def rorFirst (look : List (String × String)) : List String → String
  | [] => ""
  | i :: rest =>
    match assocFind look i with
    | some r => r
    | none => rorFirst look rest

def insSorted {β : Type} (key : β → Nat) (x : β) : List β → List β
  | [] => [x]
  | y :: ys => if key y ≤ key x then y :: insSorted key x ys else x :: y :: ys

/-- Mirror of `sort_by_key` on the collected values (ties, which the Rust
`HashMap` iteration order leaves unspecified, resolve to insertion order). -/
def sortByKey {β : Type} (key : β → Nat) (l : List β) : List β :=
  l.foldr (insSorted key) []

/-- Rows emitted for one author: one per affiliation sorted by sequence, or
a single placeholder row when the author has no affiliations. -/
def emitAuthorRows (norm : String → String) (wid : String) (doi : Option String)
    (look : List (String × String)) (affs : List ((Nat × Nat) × TempAffiliation))
    (a : Author) : List OutputRecord :=
  let authorName := a.display_name.getD ""
  let normName := norm authorName
  let authorAffs := sortByKey (fun t => t.sequence)
    ((affs.filter (fun p => p.1.1 == a.sequence)).map (fun p => p.2))
  if authorAffs.isEmpty then
    [{ work_id := wid, doi := doi, author_sequence := a.sequence,
       author_name := authorName, normalized_author_name := normName,
       affiliation_sequence := 0, affiliation_name := "",
       normalized_affiliation_name := "", affiliation_ror := "" }]
  else
    authorAffs.map (fun aff =>
      let affName := aff.raw_string.getD ""
      { work_id := wid, doi := doi, author_sequence := a.sequence,
        author_name := authorName, normalized_author_name := normName,
        affiliation_sequence := aff.sequence, affiliation_name := affName,
        normalized_affiliation_name := norm affName,
        affiliation_ror := rorFirst look aff.institution_ids })

/-- The emission half of `process_work_group`: authors sorted by sequence,
then their rows. -/
def emitGroup (norm : String → String) (wid : String) (doi : Option String)
    (st : GroupState) : List OutputRecord :=
  let look := buildRorLookup st.institutions
  let sortedAuthors := sortByKey (fun a => a.sequence) (st.authors.map (fun p => p.2))
  sortedAuthors.flatMap (emitAuthorRows norm wid doi look st.affiliations)

/-- Mirror of `process_work_group` (the writer side effect is returned as
the list of serialized rows); `norm` abstracts `normalize_text`, see
`normalizeTextWith`. -/
def processWorkGroup (norm : String → String) (wid : String) (doi : Option String)
    (records : List InputRecord) : Option (List OutputRecord) :=
  match buildGroup records emptyGroup with
  | none => none
  | some st => some (emitGroup norm wid doi st)

/-! ### Claim-side formulation of the emission (C4). -/

/-- The claim's wording of the affiliation-ROR rule: the ROR of the first
institution id of the affiliation that appears in the lookup map, else
empty. -/
def claimRorOf (look : List (String × String)) (ids : List String) : String :=
  match ids.find? (fun i => (assocFind look i).isSome) with
  | some i => (assocFind look i).getD ""
  | none => ""

def claimEmitAuthor (norm : String → String) (wid : String) (doi : Option String)
    (look : List (String × String)) (affs : List ((Nat × Nat) × TempAffiliation))
    (a : Author) : List OutputRecord :=
  let authorName := a.display_name.getD ""
  let normName := norm authorName
  let authorAffs := sortByKey (fun t => t.sequence)
    ((affs.filter (fun p => p.1.1 == a.sequence)).map (fun p => p.2))
  match authorAffs with
  | [] =>
    [{ work_id := wid, doi := doi, author_sequence := a.sequence,
       author_name := authorName, normalized_author_name := normName,
       affiliation_sequence := 0, affiliation_name := "",
       normalized_affiliation_name := "", affiliation_ror := "" }]
  | _ =>
    authorAffs.map (fun aff =>
      let affName := aff.raw_string.getD ""
      { work_id := wid, doi := doi, author_sequence := a.sequence,
        author_name := authorName, normalized_author_name := normName,
        affiliation_sequence := aff.sequence, affiliation_name := affName,
        normalized_affiliation_name := norm affName,
        affiliation_ror := claimRorOf look aff.institution_ids })

def claimEmitGroup (norm : String → String) (wid : String) (doi : Option String)
    (st : GroupState) : List OutputRecord :=
  let look := buildRorLookup st.institutions
  let sortedAuthors := sortByKey (fun a => a.sequence) (st.authors.map (fun p => p.2))
  sortedAuthors.flatMap (claimEmitAuthor norm wid doi look st.affiliations)

theorem rorFirst_eq_claim (look : List (String × String)) :
    ∀ ids, rorFirst look ids = claimRorOf look ids := by
  intro ids
  induction ids with
  | nil => rfl
  | cons i rest ih =>
    cases hf : assocFind look i with
    | none =>
      simp only [rorFirst, hf, claimRorOf, List.find?]
      have : ((assocFind look i).isSome = true) = False := by simp [hf]
      simp only [hf, Option.isSome_none, Bool.false_eq_true, if_false] at *
      simpa [claimRorOf] using ih
    | some r =>
      simp [rorFirst, hf, claimRorOf, List.find?, hf]

theorem emitAuthorRows_eq_claim (norm : String → String) (wid : String)
    (doi : Option String) (look : List (String × String))
    (affs : List ((Nat × Nat) × TempAffiliation)) (a : Author) :
    emitAuthorRows norm wid doi look affs a = claimEmitAuthor norm wid doi look affs a := by
  unfold emitAuthorRows claimEmitAuthor
  simp only [rorFirst_eq_claim]
  cases h : sortByKey (fun t => t.sequence)
      ((affs.filter (fun p => p.1.1 == a.sequence)).map (fun p => p.2)) <;>
    simp [h]

theorem emitGroup_eq_claim (norm : String → String) (wid : String) (doi : Option String)
    (st : GroupState) :
    emitGroup norm wid doi st = claimEmitGroup norm wid doi st := by
  have hf : emitAuthorRows norm wid doi (buildRorLookup st.institutions) st.affiliations =
      claimEmitAuthor norm wid doi (buildRorLookup st.institutions) st.affiliations :=
    funext (fun a => emitAuthorRows_eq_claim norm wid doi _ _ a)
  unfold emitGroup claimEmitGroup
  simp only [hf]

/-! ### Ordering and registration lemmas for the group-by. -/

theorem insSorted_mem {β : Type} (key : β → Nat) (x : β) :
    ∀ {l : List β} {z : β}, z ∈ insSorted key x l ↔ z = x ∨ z ∈ l := by
  intro l
  induction l with
  | nil => intro z; simp [insSorted]
  | cons y ys ih =>
    intro z
    simp only [insSorted]
    by_cases hc : key y ≤ key x
    · rw [if_pos hc]
      simp only [List.mem_cons, ih]
      tauto
    · rw [if_neg hc]
      simp only [List.mem_cons]

theorem insSorted_pairwise {β : Type} (key : β → Nat) (x : β) :
    ∀ {l : List β}, l.Pairwise (fun a b => key a ≤ key b) →
      (insSorted key x l).Pairwise (fun a b => key a ≤ key b) := by
  intro l
  induction l with
  | nil => intro _; simp [insSorted]
  | cons y ys ih =>
    intro h
    obtain ⟨hy, hys⟩ := List.pairwise_cons.mp h
    simp only [insSorted]
    by_cases hc : key y ≤ key x
    · rw [if_pos hc]
      refine List.pairwise_cons.mpr ⟨?_, ih hys⟩
      intro z hz
      rcases (insSorted_mem key x).mp hz with rfl | hz'
      · exact hc
      · exact hy z hz'
    · rw [if_neg hc]
      refine List.pairwise_cons.mpr ⟨?_, h⟩
      intro z hz
      rcases List.mem_cons.mp hz with rfl | hz'
      · exact le_of_lt (not_le.mp hc)
      · exact le_trans (le_of_lt (not_le.mp hc)) (hy z hz')

theorem sortByKey_pairwise {β : Type} (key : β → Nat) :
    ∀ (l : List β), (sortByKey key l).Pairwise (fun a b => key a ≤ key b) := by
  intro l
  induction l with
  | nil => simp [sortByKey]
  | cons x xs ih => exact insSorted_pairwise key x ih

theorem sortByKey_mem {β : Type} (key : β → Nat) :
    ∀ {l : List β} {z : β}, z ∈ sortByKey key l ↔ z ∈ l := by
  intro l
  induction l with
  | nil => intro z; simp [sortByKey]
  | cons x xs ih =>
    intro z
    show z ∈ insSorted key x (sortByKey key xs) ↔ _
    rw [insSorted_mem key x, ih]
    simp

theorem pairwise_flatMap {β γ : Type} {rel : γ → γ → Prop} {f : β → List γ} :
    ∀ {l : List β}, (∀ b ∈ l, (f b).Pairwise rel) →
      l.Pairwise (fun a b => ∀ x ∈ f a, ∀ y ∈ f b, rel x y) →
      (l.flatMap f).Pairwise rel := by
  intro l
  induction l with
  | nil => intro _ _; simp
  | cons b bs ih =>
    intro h1 h2
    obtain ⟨hb, hbs⟩ := List.pairwise_cons.mp h2
    rw [List.flatMap_cons]
    rw [List.pairwise_append]
    refine ⟨h1 b (by simp), ih (fun x hx => h1 x (by simp [hx])) hbs, ?_⟩
    intro x hx y hy
    obtain ⟨b', hb', hyb'⟩ := List.mem_flatMap.mp hy
    exact hb b' hb' x hx y hyb'

theorem claimEmitAuthor_seq (norm : String → String) (wid : String) (doi : Option String)
    (look : List (String × String)) (affs : List ((Nat × Nat) × TempAffiliation))
    (a : Author) :
    ∀ r ∈ claimEmitAuthor norm wid doi look affs a, r.author_sequence = a.sequence := by
  intro r hr
  unfold claimEmitAuthor at hr
  revert hr
  cases sortByKey (fun t => t.sequence)
      ((affs.filter (fun p => p.1.1 == a.sequence)).map (fun p => p.2)) with
  | nil =>
    intro hr
    simp only [List.mem_singleton] at hr
    subst hr
    rfl
  | cons a0 rest =>
    intro hr
    simp only [List.mem_map] at hr
    obtain ⟨aff, -, heq⟩ := hr
    subst heq
    rfl

/-- The emitted rows are ordered by author sequence (C4's "authors are
iterated sorted by sequence"). -/
theorem claimEmitGroup_seq_pairwise (norm : String → String) (wid : String)
    (doi : Option String) (st : GroupState) :
    (claimEmitGroup norm wid doi st).Pairwise
      (fun r1 r2 => r1.author_sequence ≤ r2.author_sequence) := by
  unfold claimEmitGroup
  refine pairwise_flatMap ?_ ?_
  · intro a _
    have hseq := claimEmitAuthor_seq norm wid doi (buildRorLookup st.institutions)
      st.affiliations a
    refine List.pairwise_of_forall_mem_list ?_
    intro x hx y hy
    rw [hseq x hx, hseq y hy]
  · have hsorted := sortByKey_pairwise (fun a : Author => a.sequence)
      (st.authors.map (fun p => p.2))
    refine hsorted.imp_of_mem ?_
    intro a b ha hb hab
    intro x hx y hy
    rw [claimEmitAuthor_seq norm wid doi _ _ a x hx,
        claimEmitAuthor_seq norm wid doi _ _ b y hy]
    exact hab

/-! ### Author registration (C10). -/

theorem updEntry_mem_key {K V : Type} [DecidableEq K] (k : K) (d : V) (f : V → V) :
    ∀ (l : List (K × V)), ∃ v, (k, v) ∈ updEntry k d f l := by
  intro l
  induction l with
  | nil => exact ⟨f d, by simp [updEntry]⟩
  | cons p rest ih =>
    obtain ⟨k', v⟩ := p
    by_cases hk : k' = k
    · subst hk
      exact ⟨f v, by simp [updEntry]⟩
    · obtain ⟨w, hw⟩ := ih
      refine ⟨w, ?_⟩
      simp only [updEntry, if_neg hk]
      exact List.mem_cons_of_mem _ hw

theorem updEntry_mem_preserve {K V : Type} [DecidableEq K] (k : K) (d : V) (f : V → V) :
    ∀ {l : List (K × V)} {k' : K}, (∃ v, (k', v) ∈ l) →
      ∃ v', (k', v') ∈ updEntry k d f l := by
  intro l
  induction l with
  | nil => intro k' h; simp at h
  | cons p rest ih =>
    intro k' h
    obtain ⟨k0, v0⟩ := p
    obtain ⟨v, hv⟩ := h
    by_cases hk : k0 = k
    · subst hk
      rcases List.mem_cons.mp hv with heq | hmem
      · injection heq with h1 h2
        subst h1
        exact ⟨f v0, by simp [updEntry]⟩
      · refine ⟨v, ?_⟩
        simp only [updEntry, if_pos rfl]
        exact List.mem_cons_of_mem _ hmem
    · rcases List.mem_cons.mp hv with heq | hmem
      · injection heq with h1 h2
        subst h1
        exact ⟨v0, by simp [updEntry, if_neg hk]⟩
      · obtain ⟨v', hv'⟩ := ih ⟨v, hmem⟩
        refine ⟨v', ?_⟩
        simp only [updEntry, if_neg hk]
        exact List.mem_cons_of_mem _ hv'

/-- `dispatchField` never removes author keys: its `authors` component is
either untouched or an `updEntry` on an existing key. -/
theorem dispatchField_authors_preserve {st1 st' : GroupState} {aIdx : Nat}
    {r : InputRecord} (h : dispatchField st1 aIdx r = some st') :
    ∀ k, (∃ v, (k, v) ∈ st1.authors) → ∃ v', (k, v') ∈ st'.authors := by
  intro k hk
  unfold dispatchField at h
  split_ifs at h with h1 h2 h3 h4 h5
  · cases h
    exact updEntry_mem_preserve _ _ _ hk
  all_goals
    first
    | (cases h; exact hk)
    | (revert h
       split
       · intro h; cases h; exact hk
       · split
         · intro h; exact absurd h (by simp)
         · intro h; cases h; exact hk)

theorem buildStep_authors_preserve {st st' : GroupState} {r : InputRecord}
    (h : buildStep st r = some st') :
    ∀ k, (∃ v, (k, v) ∈ st.authors) → ∃ v', (k, v') ∈ st'.authors := by
  intro k hk
  unfold buildStep at h
  revert h
  split
  · intro h; cases h; exact hk
  · split
    · intro h; exact absurd h (by simp)
    · intro h
      exact dispatchField_authors_preserve h k (updEntry_mem_preserve _ _ _ hk)

/-- A record carrying a parsed `authorships[N]` index registers author `N`. -/
theorem buildStep_registers {st st' : GroupState} {r : InputRecord} {ds : List Char}
    {n : Nat} (hds : authIdxDigits r.subfield_path = some ds) (hn : parseU32 ds = some n)
    (h : buildStep st r = some st') : ∃ v, (n, v) ∈ st'.authors := by
  simp only [buildStep, hds, hn] at h
  exact dispatchField_authors_preserve h n (updEntry_mem_key _ _ _ _)

theorem buildGroup_authors_preserve :
    ∀ {rs : List InputRecord} {st st' : GroupState}, buildGroup rs st = some st' →
      ∀ k, (∃ v, (k, v) ∈ st.authors) → ∃ v', (k, v') ∈ st'.authors := by
  intro rs
  induction rs with
  | nil =>
    intro st st' h k hk
    cases h
    exact hk
  | cons r rest ih =>
    intro st st' h k hk
    unfold buildGroup at h
    revert h
    cases hstep : buildStep st r with
    | none => intro h; exact absurd h (by simp)
    | some st1 =>
      intro h
      exact ih h k (buildStep_authors_preserve hstep k hk)

theorem buildGroup_registers :
    ∀ {rs : List InputRecord} {st st' : GroupState}, buildGroup rs st = some st' →
      ∀ r ∈ rs, ∀ ds n, authIdxDigits r.subfield_path = some ds → parseU32 ds = some n →
        ∃ v, (n, v) ∈ st'.authors := by
  intro rs
  induction rs with
  | nil => intro st st' h r hr; simp at hr
  | cons r0 rest ih =>
    intro st st' h r hr ds n hds hn
    unfold buildGroup at h
    revert h
    cases hstep : buildStep st r0 with
    | none => intro h; exact absurd h (by simp)
    | some st1 =>
      intro h
      rcases List.mem_cons.mp hr with rfl | hr'
      · exact buildGroup_authors_preserve h n (buildStep_registers hds hn hstep)
      · exact ih h r hr' ds n hds hn

def recognizedNames : List String :=
  [dispName, rawAffName, instIdsName, instIdName, instRorName]

theorem dispatchField_unrecognized {st1 : GroupState} {aIdx : Nat} {r : InputRecord}
    (hfn : r.field_name ∉ recognizedNames) : dispatchField st1 aIdx r = some st1 := by
  simp only [recognizedNames, List.mem_cons, List.not_mem_nil, or_false, not_or] at hfn
  obtain ⟨h1, h2, h3, h4, h5⟩ := hfn
  unfold dispatchField
  rw [if_neg h1, if_neg h2, if_neg h3, if_neg h4, if_neg h5]

/-- The group state reached by rows that carry `authorships[n]` but none of
the five dispatched field names: author `n` alone, no affiliations, no
institutions. -/
def soloAuthorState (n : Nat) : GroupState := ⟨[(n, ⟨none, n⟩)], [], []⟩

theorem buildStep_unrecognized_first {n : Nat} {r : InputRecord} {ds : List Char}
    (hds : authIdxDigits r.subfield_path = some ds) (hn : parseU32 ds = some n)
    (hfn : r.field_name ∉ recognizedNames) :
    buildStep emptyGroup r = some (soloAuthorState n) := by
  simp only [buildStep, hds, hn]
  rw [dispatchField_unrecognized hfn]
  rfl

theorem buildStep_unrecognized_solo {n : Nat} {r : InputRecord} {ds : List Char}
    (hds : authIdxDigits r.subfield_path = some ds) (hn : parseU32 ds = some n)
    (hfn : r.field_name ∉ recognizedNames) :
    buildStep (soloAuthorState n) r = some (soloAuthorState n) := by
  simp only [buildStep, hds, hn]
  rw [dispatchField_unrecognized hfn]
  simp [soloAuthorState, updEntry]

theorem buildGroup_unrecognized_solo {n : Nat} :
    ∀ {rs : List InputRecord},
      (∀ r ∈ rs, (∃ ds, authIdxDigits r.subfield_path = some ds ∧ parseU32 ds = some n) ∧
        r.field_name ∉ recognizedNames) →
      buildGroup rs (soloAuthorState n) = some (soloAuthorState n) := by
  intro rs
  induction rs with
  | nil => intro _; rfl
  | cons r rest ih =>
    intro h
    obtain ⟨⟨ds, hds, hn⟩, hfn⟩ := h r (by simp)
    unfold buildGroup
    rw [buildStep_unrecognized_solo hds hn hfn]
    exact ih (fun x hx => h x (by simp [hx]))

theorem emitGroup_solo (norm : String → String) (wid : String) (doi : Option String)
    (n : Nat) :
    emitGroup norm wid doi (soloAuthorState n) =
      [{ work_id := wid, doi := doi, author_sequence := n, author_name := "",
         normalized_author_name := norm "", affiliation_sequence := 0,
         affiliation_name := "", normalized_affiliation_name := "",
         affiliation_ror := "" }] := rfl

/-! ## Sharded writer with LRU-bounded open handles
(crossref-fast-field-parse/src/main.rs, `OrganizedOutput::new` and
`OrganizedOutput::get_writer`; the OpenAlex binary has the same structure
keyed by source id).

The cache of open `csv::Writer`s is modelled by its key list (the Rust
`HashMap` is only queried, inserted and removed by key), the LRU `VecDeque`
by a list with most-recent first, the created-files set by a list of paths,
and the file-system effects by append-only event logs: `openEvents` records
every `OpenOptions::open` call, `headerEvents` every header write.
-/

structure LruState where
  cache : List String
  lru : List String
  created : List String
  headerEvents : List String
  openEvents : List String
  maxOpen : Nat
deriving DecidableEq

/-- Mirror of `OrganizedOutput::new`: `max_open_files.max(1)`. -/
def initLru (maxOpenFiles : Nat) : LruState :=
  ⟨[], [], [], [], [], max maxOpenFiles 1⟩

def pathOf (k : String) : String := k ++ ".csv"

/-- One iteration of the eviction loop: the LRU tail is flushed, closed and
removed from the cache. -/
def evicted (s : LruState) (v : String) : LruState :=
  { s with cache := s.cache.erase v, lru := s.lru.dropLast }

/-- The `while self.current_writers.len() >= self.max_open_files` eviction
loop of `get_writer`: pop the LRU tail, flush and close it, remove it from
the cache; break if the LRU is empty. Fuel bounds the iterations; the loop
is always entered with fuel = LRU length, which the loop strictly
decreases, so the fuel never cuts the loop short. -/
def evictLoop : Nat → LruState → LruState
  | 0, s => s
  | fuel + 1, s =>
    if s.cache.length ≥ s.maxOpen then
      match s.lru.getLast? with
      | some victim => evictLoop fuel (evicted s victim)
      | none => s
    else s

/-- Admission of key `k` after eviction made room: open the shard file in
append mode (logged in `openEvents`), write the header only when the path
was never created in this process, insert at the LRU front. -/
def stepAdmit (s1 : LruState) (k : String) : LruState :=
  if pathOf k ∈ s1.created then
    { s1 with
      cache := k :: s1.cache
      lru := k :: s1.lru
      openEvents := s1.openEvents ++ [pathOf k] }
  else
    { s1 with
      cache := k :: s1.cache
      lru := k :: s1.lru
      created := pathOf k :: s1.created
      headerEvents := s1.headerEvents ++ [pathOf k]
      openEvents := s1.openEvents ++ [pathOf k] }

/-- Mirror of `OrganizedOutput::get_writer`: promote a cached key to the
front of the LRU; otherwise evict until below the cap and insert the key. -/
def stepGet (s : LruState) (k : String) : LruState :=
  if k ∈ s.cache then
    { s with lru := k :: s.lru.erase k }
  else
    stepAdmit (evictLoop s.lru.length s) k

inductive LruOp where
  | getw : String → LruOp
  | flushAll : LruOp
deriving DecidableEq

/-- One writer-thread action: `get_writer` for a key, or the final `flush`
(which closes every cached writer but keeps the created-files set). -/
def stepOp (s : LruState) : LruOp → LruState
  | .getw k => stepGet s k
  | .flushAll => { s with cache := [], lru := [] }

def runOps (ops : List LruOp) (s : LruState) : LruState :=
  ops.foldl stepOp s

/-- The state invariant of the sharded writer. -/
def LruInv (s : LruState) : Prop :=
  s.cache.Nodup ∧ s.lru.Nodup ∧ (∀ k, k ∈ s.cache ↔ k ∈ s.lru) ∧
  s.cache.length ≤ s.maxOpen ∧ 1 ≤ s.maxOpen ∧
  s.created.Nodup ∧ s.headerEvents.Nodup ∧
  (∀ p, p ∈ s.headerEvents ↔ p ∈ s.created) ∧
  (∀ p, p ∈ s.created ↔ p ∈ s.openEvents)

theorem lruGetLast_mem {α : Type} : ∀ {l : List α} {v : α}, l.getLast? = some v → v ∈ l := by
  intro l
  induction l with
  | nil => intro v h; simp at h
  | cons a rest ih =>
    intro v h
    cases rest with
    | nil =>
      simp only [List.getLast?_singleton] at h
      cases h
      simp
    | cons b t =>
      rw [List.getLast?_cons_cons] at h
      exact List.mem_cons_of_mem _ (ih h)

theorem nodup_dropLast_mem {α : Type} [DecidableEq α] :
    ∀ {l : List α}, l.Nodup → ∀ {v : α}, l.getLast? = some v →
      ∀ x, (x ∈ l.dropLast ↔ x ≠ v ∧ x ∈ l) := by
  intro l
  induction l with
  | nil => intro _ v h; simp at h
  | cons a rest ih =>
    intro hnd v h x
    cases rest with
    | nil =>
      simp only [List.getLast?_singleton] at h
      cases h
      simp
    | cons b t =>
      rw [List.getLast?_cons_cons] at h
      obtain ⟨ha, hrest⟩ := List.nodup_cons.mp hnd
      have hv : v ∈ b :: t := lruGetLast_mem h
      have hav : a ≠ v := fun hav => ha (hav ▸ hv)
      have hd : (a :: b :: t).dropLast = a :: (b :: t).dropLast := rfl
      rw [hd]
      constructor
      · intro hx
        rcases List.mem_cons.mp hx with rfl | hx'
        · exact ⟨hav, List.mem_cons_self _ _⟩
        · obtain ⟨hxv, hxm⟩ := (ih hrest h x).mp hx'
          exact ⟨hxv, List.mem_cons_of_mem _ hxm⟩
      · rintro ⟨hxv, hxm⟩
        rcases List.mem_cons.mp hxm with rfl | hxm'
        · exact List.mem_cons_self _ _
        · exact List.mem_cons_of_mem _ ((ih hrest h x).mpr ⟨hxv, hxm'⟩)

/-- Outcome of the eviction loop under the writer invariant: set structure
intact, bookkeeping untouched, and the cache strictly below the cap. -/
theorem evictLoop_spec :
    ∀ (fuel : Nat) (s : LruState), s.cache.Nodup → s.lru.Nodup →
      (∀ k, k ∈ s.cache ↔ k ∈ s.lru) → 1 ≤ s.maxOpen → s.lru.length ≤ fuel →
      (evictLoop fuel s).cache.Nodup ∧ (evictLoop fuel s).lru.Nodup ∧
      (∀ k, k ∈ (evictLoop fuel s).cache ↔ k ∈ (evictLoop fuel s).lru) ∧
      (evictLoop fuel s).created = s.created ∧
      (evictLoop fuel s).headerEvents = s.headerEvents ∧
      (evictLoop fuel s).openEvents = s.openEvents ∧
      (evictLoop fuel s).maxOpen = s.maxOpen ∧
      (∀ x, x ∈ (evictLoop fuel s).cache → x ∈ s.cache) ∧
      (evictLoop fuel s).cache.length < (evictLoop fuel s).maxOpen := by
  intro fuel
  induction fuel with
  | zero =>
    intro s h1 h2 h3 h4 h5
    have hlru : s.lru = [] := List.length_eq_zero.mp (Nat.le_zero.mp h5)
    have hcache : s.cache = [] := by
      cases hc : s.cache with
      | nil => rfl
      | cons a t =>
        exfalso
        have : a ∈ s.lru := (h3 a).mp (by rw [hc]; simp)
        rw [hlru] at this
        simp at this
    have hgoal : s.cache.length < s.maxOpen := by
      rw [hcache]
      simpa using h4
    exact ⟨h1, h2, h3, rfl, rfl, rfl, rfl, fun x hx => hx, hgoal⟩
  | succ n ih =>
    intro s h1 h2 h3 h4 h5
    by_cases hfull : s.cache.length ≥ s.maxOpen
    · have hne : s.cache ≠ [] := by
        intro hc
        rw [hc] at hfull
        simp at hfull
        omega
      have hlru_ne : s.lru ≠ [] := by
        intro hl
        obtain ⟨a, ha⟩ := List.exists_mem_of_ne_nil _ hne
        have := (h3 a).mp ha
        rw [hl] at this
        simp at this
      obtain ⟨v, hv⟩ : ∃ v, s.lru.getLast? = some v := by
        cases hgl : s.lru.getLast? with
        | none => exact absurd (List.getLast?_eq_none_iff.mp hgl) hlru_ne
        | some v => exact ⟨v, rfl⟩
      have hvc : v ∈ s.cache := (h3 v).mpr (lruGetLast_mem hv)
      have hstep : evictLoop (n + 1) s = evictLoop n (evicted s v) := by
        simp only [evictLoop, if_pos hfull, hv]
      rw [hstep]
      have hdl := nodup_dropLast_mem h2 hv
      have h1' : (evicted s v).cache.Nodup := h1.erase v
      have h2' : (evicted s v).lru.Nodup := h2.sublist (List.dropLast_sublist s.lru)
      have h3' : ∀ k, k ∈ (evicted s v).cache ↔ k ∈ (evicted s v).lru := by
        intro k
        show k ∈ s.cache.erase v ↔ k ∈ s.lru.dropLast
        rw [h1.mem_erase_iff, hdl k, h3 k]
      have h5' : (evicted s v).lru.length ≤ n := by
        show s.lru.dropLast.length ≤ n
        rw [List.length_dropLast]
        have : 1 ≤ s.lru.length := by
          cases hl : s.lru with
          | nil => exact absurd hl hlru_ne
          | cons a t => simp
        omega
      have := ih (evicted s v) h1' h2' h3' h4 h5'
      obtain ⟨a1, a2, a3, a4, a5, a6, a7, a8, a9⟩ := this
      exact ⟨a1, a2, a3, a4, a5, a6, a7,
        fun x hx => (h1.mem_erase_iff).mp (a8 x hx) |>.2, a9⟩
    · have hstep : evictLoop (n + 1) s = s := by
        simp only [evictLoop, if_neg hfull]
      rw [hstep]
      exact ⟨h1, h2, h3, rfl, rfl, rfl, rfl, fun x hx => hx, not_le.mp hfull⟩

/-- When the cache is strictly below the cap the eviction loop does
nothing. -/
theorem evictLoop_of_lt {s : LruState} (h : s.cache.length < s.maxOpen) :
    ∀ fuel, evictLoop fuel s = s := by
  intro fuel
  cases fuel with
  | zero => rfl
  | succ n => simp [evictLoop, not_le.mpr h]

theorem stepGet_inv {s : LruState} (h : LruInv s) (k : String) : LruInv (stepGet s k) := by
  obtain ⟨h1, h2, h3, h4, h5, h6, h7, h8, h9⟩ := h
  unfold stepGet
  by_cases hk : k ∈ s.cache
  · rw [if_pos hk]
    have hkl : k ∈ s.lru := (h3 k).mp hk
    refine ⟨h1, ?_, ?_, h4, h5, h6, h7, h8, h9⟩
    · refine List.nodup_cons.mpr ⟨?_, h2.erase k⟩
      intro hmem
      exact ((h2.mem_erase_iff).mp hmem).1 rfl
    · intro x
      show x ∈ s.cache ↔ x ∈ k :: s.lru.erase k
      by_cases hxk : x = k
      · subst hxk
        simp [hk]
      · simp only [List.mem_cons, hxk, false_or]
        rw [h2.mem_erase_iff]
        rw [h3 x]
        tauto
  · rw [if_neg hk]
    obtain ⟨a1, a2, a3, a4, a5, a6, a7, a8, a9⟩ :=
      evictLoop_spec s.lru.length s h1 h2 h3 h5 (le_refl _)
    set t := evictLoop s.lru.length s with ht
    have hkt : k ∉ t.cache := fun hx => hk (a8 k hx)
    have hktl : k ∉ t.lru := fun hx => hkt ((a3 k).mpr hx)
    have hcons_nodup : (k :: t.cache).Nodup := List.nodup_cons.mpr ⟨hkt, a1⟩
    have hcons_nodup_l : (k :: t.lru).Nodup := List.nodup_cons.mpr ⟨hktl, a2⟩
    have hiff : ∀ x, x ∈ k :: t.cache ↔ x ∈ k :: t.lru := by
      intro x
      simp only [List.mem_cons]
      rw [a3 x]
    have hlen : (k :: t.cache).length ≤ t.maxOpen := by
      simp only [List.length_cons]
      omega
    have hmax1 : 1 ≤ t.maxOpen := by
      rw [a7]
      exact h5
    unfold stepAdmit
    by_cases hp : pathOf k ∈ t.created
    · rw [if_pos hp]
      refine ⟨hcons_nodup, hcons_nodup_l, hiff, hlen, hmax1, ?_, ?_, ?_, ?_⟩
      · show t.created.Nodup
        rw [a4]
        exact h6
      · show t.headerEvents.Nodup
        rw [a5]
        exact h7
      · intro p
        show p ∈ t.headerEvents ↔ p ∈ t.created
        rw [a5, a4]
        exact h8 p
      · intro p
        show p ∈ t.created ↔ p ∈ t.openEvents ++ [pathOf k]
        rw [a4, a6]
        simp only [List.mem_append, List.mem_singleton]
        constructor
        · intro hpc
          exact Or.inl ((h9 p).mp hpc)
        · rintro (hpo | rfl)
          · exact (h9 p).mpr hpo
          · rw [a4] at hp
            exact hp
    · rw [if_neg hp]
      have hps : pathOf k ∉ s.created := by
        rw [a4] at hp
        exact hp
      have hph : pathOf k ∉ s.headerEvents := fun hx => hps ((h8 _).mp hx)
      refine ⟨hcons_nodup, hcons_nodup_l, hiff, hlen, hmax1, ?_, ?_, ?_, ?_⟩
      · show (pathOf k :: t.created).Nodup
        rw [a4]
        exact List.nodup_cons.mpr ⟨hps, h6⟩
      · show (t.headerEvents ++ [pathOf k]).Nodup
        rw [a5]
        rw [List.nodup_append]
        refine ⟨h7, List.nodup_singleton _, ?_⟩
        intro x hx hy
        rw [List.mem_singleton] at hy
        subst hy
        exact hph hx
      · intro p
        show p ∈ t.headerEvents ++ [pathOf k] ↔ p ∈ pathOf k :: t.created
        rw [a5, a4]
        simp only [List.mem_append, List.mem_singleton, List.mem_cons]
        rw [h8 p]
        tauto
      · intro p
        show p ∈ pathOf k :: t.created ↔ p ∈ t.openEvents ++ [pathOf k]
        rw [a4, a6]
        simp only [List.mem_append, List.mem_singleton, List.mem_cons]
        rw [h9 p]
        tauto

theorem stepOp_inv {s : LruState} (h : LruInv s) (op : LruOp) : LruInv (stepOp s op) := by
  cases op with
  | getw k => exact stepGet_inv h k
  | flushAll =>
    obtain ⟨h1, h2, h3, h4, h5, h6, h7, h8, h9⟩ := h
    exact ⟨List.nodup_nil, List.nodup_nil, fun _ => Iff.rfl, Nat.zero_le _,
      h5, h6, h7, h8, h9⟩

theorem initLru_inv (m : Nat) : LruInv (initLru m) :=
  ⟨List.nodup_nil, List.nodup_nil, fun _ => Iff.rfl, Nat.zero_le _,
    Nat.le_max_right m 1, List.nodup_nil, List.nodup_nil,
    fun _ => Iff.rfl, fun _ => Iff.rfl⟩

theorem runOps_inv : ∀ (ops : List LruOp) (s : LruState), LruInv s →
    LruInv (runOps ops s) := by
  intro ops
  induction ops with
  | nil => intro s h; exact h
  | cons op rest ih =>
    intro s h
    exact ih _ (stepOp_inv h op)

/-- `maxOpen` is never written by the eviction loop. -/
theorem evictLoop_maxOpen : ∀ (fuel : Nat) (s : LruState),
    (evictLoop fuel s).maxOpen = s.maxOpen := by
  intro fuel
  induction fuel with
  | zero => intro s; rfl
  | succ n ih =>
    intro s
    unfold evictLoop
    by_cases hfull : s.cache.length ≥ s.maxOpen
    · rw [if_pos hfull]
      cases s.lru.getLast? with
      | none => rfl
      | some v => exact ih _
    · rw [if_neg hfull]

theorem stepOp_maxOpen (s : LruState) (op : LruOp) : (stepOp s op).maxOpen = s.maxOpen := by
  cases op with
  | flushAll => rfl
  | getw k =>
    show (stepGet s k).maxOpen = s.maxOpen
    unfold stepGet stepAdmit
    by_cases hk : k ∈ s.cache
    · rw [if_pos hk]
    · rw [if_neg hk]
      split
      · exact evictLoop_maxOpen _ _
      · exact evictLoop_maxOpen _ _

theorem runOps_maxOpen : ∀ (ops : List LruOp) (s : LruState),
    (runOps ops s).maxOpen = s.maxOpen := by
  intro ops
  induction ops with
  | nil => intro s; rfl
  | cons op rest ih =>
    intro s
    have hrw : runOps (op :: rest) s = runOps rest (stepOp s op) := rfl
    rw [hrw, ih (stepOp s op), stepOp_maxOpen]

/-- Admission of a non-cached key into a full cache evicts exactly the LRU
tail. -/
theorem stepGet_evicts_tail {s : LruState} (h : LruInv s) {k : String}
    (hk : k ∉ s.cache) (hfull : s.cache.length = s.maxOpen) :
    ∃ victim, s.lru.getLast? = some victim ∧
      (stepGet s k).cache = k :: s.cache.erase victim := by
  obtain ⟨h1, h2, h3, h4, h5, h6, h7, h8, h9⟩ := h
  have hne : s.cache ≠ [] := by
    intro hc
    rw [hc] at hfull
    simp at hfull
    omega
  have hlru_ne : s.lru ≠ [] := by
    intro hl
    obtain ⟨a, ha⟩ := List.exists_mem_of_ne_nil _ hne
    have := (h3 a).mp ha
    rw [hl] at this
    simp at this
  obtain ⟨v, hv⟩ : ∃ v, s.lru.getLast? = some v := by
    cases hgl : s.lru.getLast? with
    | none => exact absurd (List.getLast?_eq_none_iff.mp hgl) hlru_ne
    | some v => exact ⟨v, rfl⟩
  refine ⟨v, hv, ?_⟩
  have hvc : v ∈ s.cache := (h3 v).mpr (lruGetLast_mem hv)
  have hlru_len : 1 ≤ s.lru.length := by
    cases hl : s.lru with
    | nil => exact absurd hl hlru_ne
    | cons a t => simp
  obtain ⟨m, hm⟩ : ∃ m, s.lru.length = m + 1 := ⟨s.lru.length - 1, by omega⟩
  have hfirst : evictLoop s.lru.length s = evictLoop m (evicted s v) := by
    rw [hm]
    simp only [evictLoop, if_pos (le_of_eq hfull.symm), hv]
  have hlt : (evicted s v).cache.length < (evicted s v).maxOpen := by
    show (s.cache.erase v).length < s.maxOpen
    rw [List.length_erase_of_mem hvc]
    omega
  have hstop := evictLoop_of_lt hlt m
  unfold stepGet stepAdmit
  rw [if_neg hk, hfirst, hstop]
  split
  · rfl
  · rfl

/-! ### Small string/fold helpers used by the claim theorems. -/

theorem dropPref_append : ∀ (p l : List Char), dropPref p (p ++ l) = some l := by
  intro p
  induction p with
  | nil => intro l; rfl
  | cons c cs ih =>
    intro l
    simp only [List.cons_append, dropPref, if_pos rfl]
    exact ih l

theorem foldl_count {γ : Type} :
    ∀ (l : List γ) (n : Nat), l.foldl (fun b _ => b + 1) n = n + l.length := by
  intro l
  induction l with
  | nil => intro n; simp
  | cons x xs ih =>
    intro n
    simp only [List.foldl_cons, List.length_cons, ih]
    omega

/-! ## Claim theorems -/

/-- C1: with the schema declaring `author` as Array and the single spec
`author.family`, extraction from
`{"author":[{"family":"Doe"},{"family":"Roe"},{}]}` yields exactly the two
triples `("author.family","author[0].family","Doe")` and
`("author.family","author[1].family","Roe")`: the schema-induced `[]` node
fans out over every element by index, extends the concrete path with `[i]`,
and the element lacking `family` contributes nothing. -/
theorem c1_array_fanout :
    extract c1Trie c1Doc =
      [("author.family", "author[0].family", "Doe"),
       ("author.family", "author[1].family", "Roe")] := by decide

/-- C5: the value string emitted for a matched node is the unescaped content
for a string, the canonical textual form for a number or bool, the empty
string for null, and the serializer's output for an object or array — with
the sentinel `"[serialization error]"` substituted when the serializer
fails; the concrete extractor serializes complex values to compact JSON;
and the (pattern, concrete path) set produced by a traversal does not
depend on the serializer at all, so a serialization failure never aborts or
changes the remaining extraction. -/
theorem c5_stringification :
    (∀ (ser : Json → Option String) (s : String), stringifyWith ser (Json.jstr s) = s)
    ∧ (∀ (ser : Json → Option String) (n : Int),
        stringifyWith ser (Json.jnum n) = toString n)
    ∧ (∀ (ser : Json → Option String) (b : Bool),
        stringifyWith ser (Json.jbool b) = (if b then "true" else "false"))
    ∧ (∀ (ser : Json → Option String), stringifyWith ser Json.null = "")
    ∧ (∀ (ser : Json → Option String) (xs : JList),
        stringifyWith ser (Json.jarr xs) = (ser (Json.jarr xs)).getD "[serialization error]")
    ∧ (∀ (ser : Json → Option String) (kvs : JObj),
        stringifyWith ser (Json.jobj kvs) = (ser (Json.jobj kvs)).getD "[serialization error]")
    ∧ (∀ xs : JList, stringifyWith serJson (Json.jarr xs) = jsonCompact (Json.jarr xs))
    ∧ (∀ kvs : JObj, stringifyWith serJson (Json.jobj kvs) = jsonCompact (Json.jobj kvs))
    ∧ (∀ (ser ser2 : Json → Option String) (j : Json) (t : TrieNode) (p : String),
        shapeOf (traverse ser j t p) = shapeOf (traverse ser2 j t p)) :=
  ⟨fun _ _ => rfl, fun _ _ => rfl, fun _ _ => rfl, fun _ => rfl, fun _ _ => rfl,
   fun _ _ => rfl, fun _ => rfl, fun _ => rfl,
   fun ser ser2 j t p => shape_traverse ser ser2 j t p⟩

/-- C7: after folding all per-file results, the global total-field-records
counter is the sum of `total_fields_extracted` over exactly the files whose
result carries no error; results with an error bump only the error-file
counter, and the unique-ID set, field counts and member/prefix counts are
those of the fold over the error-free results alone. -/
theorem c7_stats_aggregation (results : List ProcessedFileResult) :
    (foldResults results initStats).total_field_records =
      ((results.filter (fun r => !r.hasError)).map
        (fun r => r.stats.total_fields_extracted)).sum
    ∧ (foldResults results initStats).processed_files_error =
        (results.filter (fun r => r.hasError)).length
    ∧ (foldResults results initStats).processed_files_ok =
        (results.filter (fun r => !r.hasError)).length
    ∧ (foldResults results initStats).unique_records =
        (foldResults (results.filter (fun r => !r.hasError)) initStats).unique_records
    ∧ (foldResults results initStats).unique_fields =
        (foldResults (results.filter (fun r => !r.hasError)) initStats).unique_fields
    ∧ (foldResults results initStats).members =
        (foldResults (results.filter (fun r => !r.hasError)) initStats).members
    ∧ (foldResults results initStats).pfxs =
        (foldResults (results.filter (fun r => !r.hasError)) initStats).pfxs := by
  have hidem : (results.filter (fun r => !r.hasError)).filter (fun r => !r.hasError) =
      results.filter (fun r => !r.hasError) := by
    rw [List.filter_filter]
    apply List.filter_congr
    intro a _
    cases a.hasError <;> rfl
  refine ⟨?_, ?_, ?_, ?_, ?_, ?_, ?_⟩
  · rw [foldResults_sel (fun g => g.total_field_records)
      (fun b fs => b + fs.total_fields_extracted) (fun _ _ => rfl) (fun _ _ => rfl)]
    rw [foldl_add_map]
    simp [initStats]
  · rw [foldResults_err]
    simp [initStats]
  · rw [foldResults_sel (fun g => g.processed_files_ok) (fun b _ => b + 1)
      (fun _ _ => rfl) (fun _ _ => rfl)]
    rw [foldl_count]
    simp [initStats]
  · rw [foldResults_sel (fun g => g.unique_records)
      (fun b fs => fs.unique_dois.foldl (fun acc d => insertSet d acc) b)
      (fun _ _ => rfl) (fun _ _ => rfl),
      foldResults_sel (fun g => g.unique_records)
      (fun b fs => fs.unique_dois.foldl (fun acc d => insertSet d acc) b)
      (fun _ _ => rfl) (fun _ _ => rfl), hidem]
  · rw [foldResults_sel (fun g => g.unique_fields)
      (fun b fs => fs.field_counts.foldl
        (fun acc (p : String × Nat) => updEntry p.1 0 (fun c => c + p.2) acc) b)
      (fun _ _ => rfl) (fun _ _ => rfl),
      foldResults_sel (fun g => g.unique_fields)
      (fun b fs => fs.field_counts.foldl
        (fun acc (p : String × Nat) => updEntry p.1 0 (fun c => c + p.2) acc) b)
      (fun _ _ => rfl) (fun _ _ => rfl), hidem]
  · rw [foldResults_sel (fun g => g.members)
      (fun b fs => fs.member_counts.foldl
        (fun acc (p : String × Nat) => updEntry p.1 0 (fun c => c + p.2) acc) b)
      (fun _ _ => rfl) (fun _ _ => rfl),
      foldResults_sel (fun g => g.members)
      (fun b fs => fs.member_counts.foldl
        (fun acc (p : String × Nat) => updEntry p.1 0 (fun c => c + p.2) acc) b)
      (fun _ _ => rfl) (fun _ _ => rfl), hidem]
  · rw [foldResults_sel (fun g => g.pfxs)
      (fun b fs => fs.pfxCounts.foldl
        (fun acc (p : String × Nat) => updEntry p.1 0 (fun c => c + p.2) acc) b)
      (fun _ _ => rfl) (fun _ _ => rfl),
      foldResults_sel (fun g => g.pfxs)
      (fun b fs => fs.pfxCounts.foldl
        (fun acc (p : String × Nat) => updEntry p.1 0 (fun c => c + p.2) acc) b)
      (fun _ _ => rfl) (fun _ _ => rfl), hidem]

/-- C8 counterexample: the claim that normalization drops every character
that is not alphanumeric or whitespace fails on the code, which implements
the regex class `[^\w\s]` and therefore keeps the underscore (a `\w`
character). On the ASCII input "a_b" (where the deunicode transliteration
is the identity) the code returns "a_b" while the claimed pipeline returns
"ab". -/
theorem c8_normalize_counterexample :
    normalizeTextWith id "a_b" = "a_b"
    ∧ claimNormalizeC8 id "a_b" = "ab"
    ∧ normalizeTextWith id "a_b" ≠ claimNormalizeC8 id "a_b" := by decide

/-- C8 as amended: the normalized form is the input transliterated to ASCII,
lowercased, with every character that is neither a word character
(alphanumeric or underscore) nor whitespace dropped, then trimmed; in
particular every surviving character is alphanumeric, an underscore, or
whitespace. -/
theorem c8_normalize_amended (translit : String → String) (s : String) :
    normalizeTextWith translit s = amendedNormalizeC8 translit s
    ∧ ∀ c ∈ (normalizeTextWith translit s).data,
        (c.isAlphanum = true ∨ c = '_' ∨ isWsChar c = true) := by
  constructor
  · unfold normalizeTextWith amendedNormalizeC8
    have hfc : ((translit s).data.map Char.toLower).filter
          (fun c => isWordChar c || isWsChar c) =
        ((translit s).data.map Char.toLower).filter
          (fun c => c.isAlphanum || c = '_' || isWsChar c) := by
      apply List.filter_congr
      intro c _
      simp [isWordChar, Bool.or_assoc]
    simp only [hfc]
  · intro c hc
    have hc2 : c ∈ trimWs (((translit s).data.map Char.toLower).filter
        (fun c => isWordChar c || isWsChar c)) := hc
    have hc3 := mem_of_mem_trimWs hc2
    have hpred := List.of_mem_filter hc3
    simp only [isWordChar, Char.isAlphanum, Bool.or_eq_true, decide_eq_true_eq] at hpred
    rcases hpred with (h | h) | h
    · exact Or.inl (by simpa [Char.isAlphanum] using h)
    · exact Or.inr (Or.inl h)
    · exact Or.inr (Or.inr h)

/-- C8 amended, witnessed at a concrete input. -/
theorem c8_normalize_amended_witness :
    normalizeTextWith id " Ab_9! " = amendedNormalizeC8 id " Ab_9! "
    ∧ ∀ c ∈ (normalizeTextWith id " Ab_9! ").data,
        (c.isAlphanum = true ∨ c = '_' ∨ isWsChar c = true) :=
  c8_normalize_amended id " Ab_9! "

/-- C9: an OpenAlex record whose `doi` field starts with
`https://doi.org/` has that leading URL removed before any further use: the
emitted DOI is the remainder, and the DOI prefix is computed from the
remainder (its part before the first slash), not from the URL. -/
theorem c9_doi_strip (rec : Json) (rest : String)
    (h : jGet rec "doi" = some (Json.jstr ("https://doi.org/" ++ rest))) :
    oaDoiOf rec = some rest
    ∧ oaPfxOf (oaDoiOf rec) =
        (if rest.data.contains '/' then
          some (String.mk (rest.data.takeWhile (fun c => c ≠ '/')))
        else none) := by
  have hstrip : oaDoiOf rec = some rest := by
    unfold oaDoiOf
    rw [h]
    simp only [asStr, Option.map_some']
    have hdata : ("https://doi.org/" ++ rest).data =
        "https://doi.org/".data ++ rest.data := String.data_append _ _
    rw [hdata, dropPref_append]
  refine ⟨hstrip, ?_⟩
  rw [hstrip]
  rfl

/-- C9 witnessed at a concrete record. -/
theorem c9_doi_strip_witness :
    oaDoiOf (Json.jobj (JObj.cons "doi"
        (Json.jstr "https://doi.org/10.1234/abc") JObj.nil)) = some "10.1234/abc"
    ∧ oaPfxOf (oaDoiOf (Json.jobj (JObj.cons "doi"
        (Json.jstr "https://doi.org/10.1234/abc") JObj.nil))) =
      (if ("10.1234/abc" : String).data.contains '/' then
        some (String.mk (("10.1234/abc" : String).data.takeWhile (fun c => c ≠ '/')))
      else none) :=
  c9_doi_strip (Json.jobj (JObj.cons "doi"
    (Json.jstr "https://doi.org/10.1234/abc") JObj.nil)) "10.1234/abc" (by decide)

/-- C2: for a record that passes the user filters, rejection for missing
fields works as follows: a Crossref record is accepted exactly when both
the member (grouping key) and the DOI (primary ID) are present — a missing
member drops it with no rows — while an OpenAlex record is accepted exactly
when the work id (primary ID) is present: a missing source id does not
reject it, and its rows are written with an empty `source_id` CSV column. -/
theorem c2_missing_key_policy (fm fp gs gp : Option String) (trie : TrieNode)
    (recCr recOa : Json) (fpath : String)
    (hc1 : failsFilter fm (crMemberOf recCr) = false)
    (hc2 : failsFilter fp (crPfxOf recCr (crDoiOf recCr)) = false)
    (ho1 : failsFilter gs (oaSourceOf recOa) = false)
    (ho2 : failsFilter gp (oaPfxOf (oaDoiOf recOa)) = false) :
    ((∃ rows, crProcessRecord fm fp trie recCr = CrOutcome.accepted rows) ↔
      (crMemberOf recCr ≠ none ∧ crDoiOf recCr ≠ none))
    ∧ (crMemberOf recCr = none →
        crProcessRecord fm fp trie recCr = CrOutcome.missingMember)
    ∧ ((∃ rows, oaProcessRecord gs gp trie fpath recOa = OaOutcome.accepted rows) ↔
        oaWorkIdOf recOa ≠ none)
    ∧ (∀ rows, oaProcessRecord gs gp trie fpath recOa = OaOutcome.accepted rows →
        oaSourceOf recOa = none →
        ∀ r ∈ rows, r.source_id = none ∧ (oaCsvRow r).getD 5 "?" = "") := by
  refine ⟨?_, ?_, ?_, ?_⟩
  · simp only [crProcessRecord, hc1, hc2, Bool.false_eq_true, if_false]
    cases hm : crMemberOf recCr with
    | none => simp
    | some m0 =>
      cases hd : crDoiOf recCr with
      | none => simp
      | some d0 => simp
  · intro hm
    rw [hm] at hc1
    simp only [crProcessRecord, hm, hc1, hc2, Bool.false_eq_true, if_false]
  · simp only [oaProcessRecord, ho1, ho2, Bool.false_eq_true, if_false]
    cases hw : oaWorkIdOf recOa with
    | none => simp
    | some w0 => simp
  · intro rows hacc hsrc r hr
    simp only [oaProcessRecord, ho1, ho2, Bool.false_eq_true, if_false] at hacc
    cases hw : oaWorkIdOf recOa with
    | none =>
      simp only [hw] at hacc
      exact absurd hacc (by simp)
    | some w0 =>
      simp only [hw] at hacc
      have hrows : ((extract trie recOa).map (fun tr =>
          ({ work_id := w0, doi := oaDoiOf recOa, field_name := tr.1,
             subfield_path := tr.2.1, value := tr.2.2, source_id := oaSourceOf recOa,
             doiPfx := (oaPfxOf (oaDoiOf recOa)).getD "",
             source_file_path := fpath } : OaRow))) = rows := by
        injection hacc
      rw [← hrows] at hr
      obtain ⟨tr, -, heq⟩ := List.mem_map.mp hr
      subst heq
      refine ⟨hsrc, ?_⟩
      simp [oaCsvRow, hsrc]

/-- C2 witnessed: a Crossref record missing `member` is dropped with no
rows; an OpenAlex record with an `id` but no `primary_location.source.id`
is accepted and its CSV rows carry an empty source column. -/
theorem c2_missing_key_policy_witness :
    ((∃ rows, crProcessRecord none none c1Trie
        (Json.jobj (JObj.cons "DOI" (Json.jstr "10.1/x") JObj.nil)) =
      CrOutcome.accepted rows) ↔
      (crMemberOf (Json.jobj (JObj.cons "DOI" (Json.jstr "10.1/x") JObj.nil)) ≠ none ∧
       crDoiOf (Json.jobj (JObj.cons "DOI" (Json.jstr "10.1/x") JObj.nil)) ≠ none))
    ∧ (crMemberOf (Json.jobj (JObj.cons "DOI" (Json.jstr "10.1/x") JObj.nil)) = none →
        crProcessRecord none none c1Trie
          (Json.jobj (JObj.cons "DOI" (Json.jstr "10.1/x") JObj.nil)) =
        CrOutcome.missingMember)
    ∧ ((∃ rows, oaProcessRecord none none c1Trie "f.gz"
          (Json.jobj (JObj.cons "id" (Json.jstr "W7") JObj.nil)) =
        OaOutcome.accepted rows) ↔
        oaWorkIdOf (Json.jobj (JObj.cons "id" (Json.jstr "W7") JObj.nil)) ≠ none)
    ∧ (∀ rows, oaProcessRecord none none c1Trie "f.gz"
          (Json.jobj (JObj.cons "id" (Json.jstr "W7") JObj.nil)) =
          OaOutcome.accepted rows →
        oaSourceOf (Json.jobj (JObj.cons "id" (Json.jstr "W7") JObj.nil)) = none →
        ∀ r ∈ rows, r.source_id = none ∧ (oaCsvRow r).getD 5 "?" = "") :=
  c2_missing_key_policy none none none none c1Trie
    (Json.jobj (JObj.cons "DOI" (Json.jstr "10.1/x") JObj.nil))
    (Json.jobj (JObj.cons "id" (Json.jstr "W7") JObj.nil)) "f.gz"
    (by decide) (by decide) (by decide) (by decide)

/-- C3: for sorted input chunks, the k-way merge emits a number of rows
equal to the sum of the chunks' row counts, its output is a permutation of
the chunks' contents (each pop writes one head record and refills from the
same reader, so every input record is written exactly once), and the output
is monotonically non-decreasing by the `work_id` key. -/
theorem c3_kway_merge (chunks : List (List InputRecord))
    (hs : ∀ c ∈ chunks, c.Sorted (fun a b => recKey a ≤ recKey b)) :
    (mergeChunks chunks).length = (chunks.map List.length).sum
    ∧ (mergeChunks chunks).Perm chunks.flatten
    ∧ (mergeChunks chunks).Sorted (fun a b => recKey a ≤ recKey b) := by
  have hperm : (mergeChunks chunks).Perm chunks.flatten :=
    kMergeFuel_perm recKey (le_refl (totalLen chunks))
  refine ⟨?_, hperm, kMergeFuel_sorted recKey (le_refl (totalLen chunks)) hs⟩
  rw [hperm.length_eq, List.length_flatten]

def c3r (wid : String) : InputRecord := ⟨wid, none, "f", "p", "v", none, none, none⟩

def c3Chunks : List (List InputRecord) := [[c3r "a", c3r "c"], [c3r "b"], []]

/-- C3 witnessed on three concrete chunks. -/
theorem c3_kway_merge_witness :
    (mergeChunks c3Chunks).length = (c3Chunks.map List.length).sum
    ∧ (mergeChunks c3Chunks).Perm c3Chunks.flatten
    ∧ (mergeChunks c3Chunks).Sorted (fun a b => recKey a ≤ recKey b) :=
  c3_kway_merge c3Chunks (by
    have hac : ("a" : String) ≤ "c" := by
      rw [String.le_iff_toList_le]
      decide
    intro c hc
    simp only [c3Chunks, List.mem_cons, List.not_mem_nil, or_false] at hc
    rcases hc with rfl | rfl | rfl
    · refine List.sorted_cons.mpr ⟨?_, List.sorted_singleton _⟩
      intro b hb
      simp only [List.mem_singleton] at hb
      subst hb
      exact hac
    · exact List.sorted_singleton _
    · exact List.sorted_nil)

/-- C4: whenever the group build succeeds, materialization emits exactly
the claim-side description: authors iterated sorted by sequence (the output
author sequences are non-decreasing), one row per (author, affiliation)
pair with the author's affiliations sorted by sequence, a single row with
empty affiliation fields and affiliation_sequence = 0 for an author with no
affiliations, and each affiliation_ror equal to the ROR of the first
institution id of that affiliation found in the group-local id→ror map
(empty when none is). -/
theorem c4_group_materialization (norm : String → String) (wid : String)
    (doi : Option String) (rs : List InputRecord) (st : GroupState)
    (h : buildGroup rs emptyGroup = some st) :
    processWorkGroup norm wid doi rs = some (claimEmitGroup norm wid doi st)
    ∧ (claimEmitGroup norm wid doi st).Pairwise
        (fun r1 r2 => r1.author_sequence ≤ r2.author_sequence) := by
  constructor
  · simp only [processWorkGroup, h]
    rw [emitGroup_eq_claim]
  · exact claimEmitGroup_seq_pairwise norm wid doi st

def mkC4Rec (fn sp v : String) : InputRecord :=
  ⟨"W1", some "10.1/x", fn, sp, v, none, none, none⟩

def c4Records : List InputRecord :=
  [mkC4Rec "authorships.author.display_name"
      "authorships[0].author.display_name" "Ada",
   mkC4Rec "authorships.affiliations.raw_affiliation_string"
      "authorships[0].affiliations[0].raw_affiliation_string" "MIT",
   mkC4Rec "authorships.affiliations.raw_affiliation_string"
      "authorships[0].affiliations[1].raw_affiliation_string" "CERN",
   mkC4Rec "authorships.institutions.id" "authorships[0].institutions[0].id" "I1",
   mkC4Rec "authorships.institutions.ror" "authorships[0].institutions[0].ror" "ror1",
   mkC4Rec "authorships.affiliations.institution_ids"
      "authorships[0].affiliations[0].institution_ids" "I1",
   mkC4Rec "authorships.author.display_name"
      "authorships[1].author.display_name" "Bob"]

def c4State : GroupState :=
  ⟨[(0, ⟨some "Ada", 0⟩), (1, ⟨some "Bob", 1⟩)],
   [((0, 0), ⟨some "MIT", ["I1"], 0⟩), ((0, 1), ⟨some "CERN", [], 1⟩)],
   [((0, 0), ⟨some "I1", some "ror1"⟩)]⟩

/-- C4 witnessed on a concrete two-author group. -/
theorem c4_group_materialization_witness :
    processWorkGroup id "W1" (some "10.1/x") c4Records =
      some (claimEmitGroup id "W1" (some "10.1/x") c4State)
    ∧ (claimEmitGroup id "W1" (some "10.1/x") c4State).Pairwise
        (fun r1 r2 => r1.author_sequence ≤ r2.author_sequence) :=
  c4_group_materialization id "W1" (some "10.1/x") c4Records c4State (by decide)

/-- C6: along any run of the sharded writer, the open-handle cache never
holds more than `max max_open_files 1` writers, every cached key appears
exactly once in the LRU list (and the LRU holds only cached keys), each
shard path receives its header at most once and exactly the opened paths
received one, and inserting a non-cached key into a full cache evicts
precisely the LRU tail. -/
theorem c6_lru_invariants (m : Nat) (ops : List LruOp) :
    (runOps ops (initLru m)).cache.length ≤ max m 1
    ∧ (∀ k, k ∈ (runOps ops (initLru m)).cache →
        (runOps ops (initLru m)).lru.count k = 1)
    ∧ (∀ k, k ∈ (runOps ops (initLru m)).lru → k ∈ (runOps ops (initLru m)).cache)
    ∧ (runOps ops (initLru m)).headerEvents.Nodup
    ∧ (∀ p, p ∈ (runOps ops (initLru m)).headerEvents ↔
        p ∈ (runOps ops (initLru m)).openEvents)
    ∧ (∀ k, k ∉ (runOps ops (initLru m)).cache →
        (runOps ops (initLru m)).cache.length = max m 1 →
        ∃ victim, (runOps ops (initLru m)).lru.getLast? = some victim ∧
          (stepGet (runOps ops (initLru m)) k).cache =
            k :: (runOps ops (initLru m)).cache.erase victim) := by
  have hinv := runOps_inv ops (initLru m) (initLru_inv m)
  have hmax : (runOps ops (initLru m)).maxOpen = max m 1 := runOps_maxOpen ops (initLru m)
  obtain ⟨h1, h2, h3, h4, h5, h6, h7, h8, h9⟩ := hinv
  refine ⟨by rw [← hmax]; exact h4, ?_, ?_, h7, ?_, ?_⟩
  · intro k hk
    exact List.count_eq_one_of_mem h2 ((h3 k).mp hk)
  · intro k hk
    exact (h3 k).mpr hk
  · intro p
    rw [h8 p, h9 p]
  · intro k hk hfull
    exact stepGet_evicts_tail ⟨h1, h2, h3, h4, h5, h6, h7, h8, h9⟩ hk
      (by rw [hfull, ← hmax])

def c6Ops : List LruOp :=
  [.getw "A", .getw "B", .getw "A", .getw "C", .getw "B"]

/-- C6 witnessed on the spec's eviction scenario (`M = 2`, keys
A, B, A, C, B). -/
theorem c6_lru_invariants_witness :
    (runOps c6Ops (initLru 2)).cache.length ≤ max 2 1
    ∧ (∀ k, k ∈ (runOps c6Ops (initLru 2)).cache →
        (runOps c6Ops (initLru 2)).lru.count k = 1)
    ∧ (∀ k, k ∈ (runOps c6Ops (initLru 2)).lru → k ∈ (runOps c6Ops (initLru 2)).cache)
    ∧ (runOps c6Ops (initLru 2)).headerEvents.Nodup
    ∧ (∀ p, p ∈ (runOps c6Ops (initLru 2)).headerEvents ↔
        p ∈ (runOps c6Ops (initLru 2)).openEvents)
    ∧ (∀ k, k ∉ (runOps c6Ops (initLru 2)).cache →
        (runOps c6Ops (initLru 2)).cache.length = max 2 1 →
        ∃ victim, (runOps c6Ops (initLru 2)).lru.getLast? = some victim ∧
          (stepGet (runOps c6Ops (initLru 2)) k).cache =
            k :: (runOps c6Ops (initLru 2)).cache.erase victim) :=
  c6_lru_invariants 2 c6Ops

/-- C10: every row whose subfield_path carries an `authorships[N]` index
registers author N in the group even when its field_name is none of the
five dispatched names; and a non-empty group consisting only of such
unrecognized rows for author N emits exactly one row for that author, with
empty author_name, empty normalized_author_name and
affiliation_sequence = 0. -/
theorem c10_unrecognized_rows :
    (∀ (rs : List InputRecord) (st : GroupState), buildGroup rs emptyGroup = some st →
      ∀ r ∈ rs, ∀ ds n, authIdxDigits r.subfield_path = some ds →
        parseU32 ds = some n → ∃ v, (n, v) ∈ st.authors)
    ∧ (∀ (norm : String → String) (wid : String) (doi : Option String) (n : Nat)
        (r0 : InputRecord) (rest : List InputRecord),
        norm "" = "" →
        (∀ r ∈ r0 :: rest,
          (∃ ds, authIdxDigits r.subfield_path = some ds ∧ parseU32 ds = some n) ∧
          r.field_name ∉ recognizedNames) →
        processWorkGroup norm wid doi (r0 :: rest) =
          some [{ work_id := wid, doi := doi, author_sequence := n, author_name := "",
                  normalized_author_name := "", affiliation_sequence := 0,
                  affiliation_name := "", normalized_affiliation_name := "",
                  affiliation_ror := "" }]) := by
  constructor
  · intro rs st h r hr ds n hds hn
    exact buildGroup_registers h r hr ds n hds hn
  · intro norm wid doi n r0 rest hnorm hall
    obtain ⟨⟨ds, hds, hn⟩, hfn⟩ := hall r0 (by simp)
    have h1 : buildGroup (r0 :: rest) emptyGroup = some (soloAuthorState n) := by
      show (match buildStep emptyGroup r0 with
        | none => none
        | some st' => buildGroup rest st') = some (soloAuthorState n)
      rw [buildStep_unrecognized_first hds hn hfn]
      exact buildGroup_unrecognized_solo (fun r hr => hall r (List.mem_cons_of_mem _ hr))
    simp only [processWorkGroup, h1]
    rw [emitGroup_solo, hnorm]

/-- C10 witnessed: a single row with an unrecognized field name but an
`authorships[2]` index yields exactly the placeholder row for author 2. -/
theorem c10_unrecognized_rows_witness :
    processWorkGroup id "W1" (some "d")
        [⟨"W1", some "d", "authorships.author.id", "authorships[2].author.id", "A5",
          none, none, none⟩] =
      some [{ work_id := "W1", doi := some "d", author_sequence := 2, author_name := "",
              normalized_author_name := "", affiliation_sequence := 0,
              affiliation_name := "", normalized_affiliation_name := "",
              affiliation_ror := "" }] :=
  c10_unrecognized_rows.2 id "W1" (some "d") 2
    ⟨"W1", some "d", "authorships.author.id", "authorships[2].author.id", "A5",
      none, none, none⟩ [] rfl
    (by
      intro r hr
      simp only [List.mem_singleton] at hr
      subst hr
      exact ⟨⟨['2'], by decide, by decide⟩, by decide⟩)

end CurationProofs
